import Mathlib

/-!
Verification of the ignore-rule resolution engine of `gi_cleaner`
(`src/gi_cleaner/main.py`).

Paths are modelled as lists of components relative to the root directory
(`[]` is the root itself).  The gitignore pattern syntax is out of scope:
a compiled pattern set (`pathspec.PathSpec`) is an opaque `Matcher` that
receives the relative path (as components) and a flag telling whether the
queried string carried a trailing slash (`spec.match_file(str(rel) + "/")`).
-/

/-- Opaque compiled pattern set: `pathspec.PathSpec.match_file`.
The first argument is the relative path (components), the second is `true`
when the path is queried with a trailing slash appended. -/
def Matcher : Type := List String → Bool → Bool

/-- The `gitignore_specs` dictionary: directory path (relative to root) to
compiled matcher.  `none` models absence of a key. -/
def RuleMap : Type := List String → Option Matcher

/-- One probe of `is_file_ignored`: if directory `d` has a spec, test the
relative path `rel` (no trailing slash), else `False`. -/
def checkFileAt (specs : RuleMap) (d rel : List String) : Bool :=
  match specs d with
  | some m => m rel false
  | none => false

/-- One probe of `is_directory_ignored`: if directory `d` has a spec, test
`rel` with a trailing slash, then without
(`spec.match_file(dir_pattern) or spec.match_file(str(relative_path))`). -/
def checkDirAt (specs : RuleMap) (d rel : List String) : Bool :=
  match specs d with
  | some m => m rel true || m rel false
  | none => false

/-- The `for part in relative_to_root.parent.parts` loop of
`is_file_ignored`, followed by the final-directory check and the redundant
file-parent check of the source.  `done` is the portion of the parent chain
already consumed (`current_check_dir` relative to root), `rem` the remaining
components of the file's parent, `name` the file name. -/
def fileWalkLoop (specs : RuleMap) (done rem : List String) (name : String) : Bool :=
  match rem with
  | [] =>
    -- "Check the final directory" (current_check_dir is now the file's parent)
    checkFileAt specs done [name] ||
    -- "Also check the file's own directory" (the same directory again)
    checkFileAt specs done [name]
  | part :: rest =>
    checkFileAt specs done (rem ++ [name]) || fileWalkLoop specs (done ++ [part]) rest name

/-- `is_file_ignored(file_path, root_directory, gitignore_specs)` where the
file is `root / parentParts / name`. -/
def is_file_ignored (specs : RuleMap) (parentParts : List String) (name : String) : Bool :=
  fileWalkLoop specs [] parentParts name

/-- The `for part in relative_to_root.parts` loop of `is_directory_ignored`:
checks each ancestor from root to the directory's parent; there is no
check after the loop. -/
def dirWalkLoop (specs : RuleMap) (done rem : List String) : Bool :=
  match rem with
  | [] => false
  | part :: rest =>
    checkDirAt specs done rem || dirWalkLoop specs (done ++ [part]) rest

/-- `is_directory_ignored(dir_path, root_directory, gitignore_specs)` where
the directory is `root / parts`. -/
def is_directory_ignored (specs : RuleMap) (parts : List String) : Bool :=
  dirWalkLoop specs [] parts

/-- Modelled from the spec's words for claim C1: walk the ancestor chain
from the root (`i = 0`) down to the file's immediate parent
(`i = parentParts.length`), inclusive, and report whether some ancestor
scope matches the file's path relative to that ancestor. -/
def isFileIgnoredSpec (specs : RuleMap) (parentParts : List String) (name : String) : Bool :=
  (List.range (parentParts.length + 1)).any fun i =>
    checkFileAt specs (parentParts.take i) (parentParts.drop i ++ [name])

theorem fileWalkLoop_eq_any (specs : RuleMap) (name : String) :
    ∀ (rem done : List String),
      fileWalkLoop specs done rem name =
        ((List.range (rem.length + 1)).any fun i =>
          checkFileAt specs (done ++ rem.take i) (rem.drop i ++ [name])) := by
  intro rem
  induction rem with
  | nil =>
    intro done
    simp [fileWalkLoop, List.range_succ]
  | cons p rest ih =>
    intro done
    simp only [fileWalkLoop, List.length_cons, List.range_succ_eq_map, List.any_cons,
      List.any_map, Function.comp]
    simp only [List.take_zero, List.append_nil, List.drop_zero]
    congr 1
    rw [ih (done ++ [p])]
    simp only [List.range_succ_eq_map, List.any_cons, List.any_map, Function.comp]
    congr 1
    · simp
    · congr 1
      funext i
      simp [List.take_succ_cons, List.drop_succ_cons, List.append_assoc]

theorem dirWalkLoop_eq_any (specs : RuleMap) :
    ∀ (rem done : List String),
      dirWalkLoop specs done rem =
        ((List.range rem.length).any fun i =>
          checkDirAt specs (done ++ rem.take i) (rem.drop i)) := by
  intro rem
  induction rem with
  | nil =>
    intro done
    simp [dirWalkLoop]
  | cons p rest ih =>
    intro done
    simp only [dirWalkLoop, List.length_cons, List.range_succ_eq_map, List.any_cons,
      List.any_map, Function.comp]
    congr 1
    · simp
    · rw [ih (done ++ [p])]
      congr 1
      funext i
      simp [List.take_succ_cons, List.drop_succ_cons, List.append_assoc]

theorem listAny_congr {α : Type} {l : List α} {f g : α → Bool}
    (h : ∀ a ∈ l, f a = g a) : l.any f = l.any g := by
  induction l with
  | nil => rfl
  | cons x xs ih =>
    simp only [List.any_cons, h x (List.mem_cons_self x xs),
      ih (fun a ha => h a (List.mem_cons_of_mem x ha))]

/-- Point update of a rule map at one key. -/
def updateRM (specs : RuleMap) (k : List String) (m : Matcher) : RuleMap :=
  fun d => if d = k then some m else specs d

/-- C1 — `is_file_ignored` walks the ancestor chain from the root down to the
file's immediate parent (inclusive), returns `true` exactly when the first
(hence some) ancestor scope matches the file's path relative to that
ancestor, and `false` when no ancestor scope matches.  Stated as equality
with `isFileIgnoredSpec`, the direct transcription of the spec sentence. -/
theorem C1_is_file_ignored_first_match_root_to_leaf
    (specs : RuleMap) (parentParts : List String) (name : String) :
    is_file_ignored specs parentParts name = isFileIgnoredSpec specs parentParts name := by
  unfold is_file_ignored isFileIgnoredSpec
  rw [fileWalkLoop_eq_any]
  simp

/-- C10 — `is_directory_ignored` consults only the scopes of the directory's
strict ancestors (root up to and including its parent): (1) two rule maps
that agree on every strict ancestor of `parts` classify `parts` alike;
(2) adding or replacing a scope keyed at the directory itself never changes
its classification; (3) the root is never classified ignored. -/
theorem C10_is_directory_ignored_strict_ancestors_only :
    (∀ (specs1 specs2 : RuleMap) (parts : List String),
        (∀ i, i < parts.length → specs1 (parts.take i) = specs2 (parts.take i)) →
        is_directory_ignored specs1 parts = is_directory_ignored specs2 parts) ∧
    (∀ (specs : RuleMap) (m : Matcher) (parts : List String),
        is_directory_ignored (updateRM specs parts m) parts =
          is_directory_ignored specs parts) ∧
    (∀ specs : RuleMap, is_directory_ignored specs [] = false) := by
  have key : ∀ (specs1 specs2 : RuleMap) (parts : List String),
      (∀ i, i < parts.length → specs1 (parts.take i) = specs2 (parts.take i)) →
      is_directory_ignored specs1 parts = is_directory_ignored specs2 parts := by
    intro specs1 specs2 parts h
    unfold is_directory_ignored
    rw [dirWalkLoop_eq_any, dirWalkLoop_eq_any]
    apply listAny_congr
    intro i hi
    rw [List.mem_range] at hi
    simp only [List.nil_append]
    unfold checkDirAt
    rw [h i hi]
  refine ⟨key, ?_, ?_⟩
  · intro specs m parts
    apply key
    intro i hi
    unfold updateRM
    have : parts.take i ≠ parts := by
      intro he
      have := congrArg List.length he
      simp [List.length_take] at this
      omega
    simp [this]
  · intro specs
    rfl

/-- Witness for C10 at a concrete input: two distinct rule maps that agree
on the strict ancestors of `["a"]` (only the root), one of which has a scope
keyed at `["a"]` itself. -/
theorem C10_witness :
    is_directory_ignored
        (fun d => if d = ["a"] then some (fun _ _ => true) else none) ["a"] =
      is_directory_ignored (fun _ => none) ["a"] :=
  C10_is_directory_ignored_strict_ancestors_only.1
    (fun d => if d = ["a"] then some (fun _ _ => true) else none)
    (fun _ => none) ["a"]
    (fun i hi => by
      match i, hi with
      | 0, _ => rfl)

/-!
Filesystem model.  A directory holds a list of child directories
(`FSEntries`, name plus subtree, in enumeration order) and a list of file
names.  `os.walk` is top-down and depth-first over these lists.
-/

mutual
inductive FSTree : Type where
  | mk : FSEntries → List String → FSTree
inductive FSEntries : Type where
  | nil : FSEntries
  | cons : String → FSTree → FSEntries → FSEntries
end

/-- File names of a node. -/
def rootFiles : FSTree → List String
  | .mk _ fs => fs

/-- Child-directory entries of a node. -/
def rootEntries : FSTree → FSEntries
  | .mk es _ => es

/-- Names of the child directories, in enumeration order. -/
def entryNames : FSEntries → List String
  | .nil => []
  | .cons n _ rest => n :: entryNames rest

/-- The entries as a plain list of pairs. -/
def entriesToList : FSEntries → List (String × FSTree)
  | .nil => []
  | .cons n t rest => (n, t) :: entriesToList rest

/-- Executable duplicate check on names. -/
def noDupB : List String → Bool
  | [] => true
  | x :: xs => !xs.contains x && noDupB xs

mutual
/-- Well-formed directory node: the names of its child directories and files
are pairwise distinct (as on a real filesystem) and every subtree is
well-formed. -/
def wellFormedT : FSTree → Bool
  | .mk es fs => noDupB (entryNames es ++ fs) && wellFormedE es
/-- All subtrees in an entry list are well-formed. -/
def wellFormedE : FSEntries → Bool
  | .nil => true
  | .cons _ t rest => wellFormedT t && wellFormedE rest
end

/-- First entry with the given name, if any. -/
def findEntry : FSEntries → String → Option FSTree
  | .nil, _ => none
  | .cons n t rest, x => if n = x then some t else findEntry rest x

/-- Subtree of `t` at relative path `p`. -/
def lookupDir (t : FSTree) : List String → Option FSTree
  | [] => some t
  | n :: rest =>
    match findEntry (rootEntries t) n with
    | none => none
    | some t' => lookupDir t' rest

/-- Whether a node directly contains an ignore-rule file, i.e. whether
`(directory / ".gitignore").exists()` holds for it (as on a real tree where
`.gitignore`, when present, is a file). -/
def hasGI (t : FSTree) : Bool :=
  (rootFiles t).contains ".gitignore"

mutual
/-- Relative paths of all directories strictly below `pre`, every subtree
included (`.git` is not special here), in `os.walk` order. -/
def dirPathsT (pre : List String) : FSTree → List (List String)
  | .mk es _ => dirPathsE pre es
def dirPathsE (pre : List String) : FSEntries → List (List String)
  | .nil => []
  | .cons n t rest =>
    (pre ++ [n]) :: (dirPathsT (pre ++ [n]) t ++ dirPathsE pre rest)
end

mutual
/-- Relative paths of all files at or below `pre`, every subtree included. -/
def filePathsT (pre : List String) : FSTree → List (List String)
  | .mk es fs => fs.map (fun f => pre ++ [f]) ++ filePathsE pre es
def filePathsE (pre : List String) : FSEntries → List (List String)
  | .nil => []
  | .cons n t rest => filePathsT (pre ++ [n]) t ++ filePathsE pre rest
end

mutual
/-- `collect_all_gitignore_specs`: a full `os.walk` of the tree (no `.git`
pruning — the loop discards the dirnames list), inserting `(directory,
compiled spec)` for every directory whose `.gitignore` exists.  `compile p`
stands for `load_gitignore_patterns` at directory `p` (pattern compilation
is opaque). -/
def collectT (compile : List String → Matcher) (pre : List String) :
    FSTree → List (List String × Matcher)
  | .mk es fs =>
    (if fs.contains ".gitignore" then [(pre, compile pre)] else []) ++
      collectE compile pre es
def collectE (compile : List String → Matcher) (pre : List String) :
    FSEntries → List (List String × Matcher)
  | .nil => []
  | .cons n t rest => collectT compile (pre ++ [n]) t ++ collectE compile pre rest
end

/-- `collect_all_gitignore_specs(root_directory)`. -/
def collect_all_gitignore_specs (compile : List String → Matcher) (t : FSTree) :
    List (List String × Matcher) :=
  collectT compile [] t

/-- Dictionary lookup over the collected association list (later insertions
win, as in a Python dict; keys are unique on a well-formed tree). -/
def lookupRM (l : List (List String × Matcher)) : RuleMap :=
  fun d => (l.reverse.find? (fun e => e.1 == d)).map (fun e => e.2)

/-- The directory-classification loop of `find_ignored_files`: names of the
children of the current directory that are classified ignored, in order.
`gitSeen` is `true` once the single `directories.remove(".git")` of the
source has taken effect, so the first `.git` entry is skipped. -/
def ignoredDirNames (specs : RuleMap) (pre : List String) :
    FSEntries → Bool → List String
  | .nil, _ => []
  | .cons n _ rest, gitSeen =>
    if n = ".git" ∧ gitSeen = false then ignoredDirNames specs pre rest true
    else if is_directory_ignored specs (pre ++ [n]) then
      n :: ignoredDirNames specs pre rest gitSeen
    else ignoredDirNames specs pre rest gitSeen

mutual
/-- The decision pass of `find_ignored_files` below directory `pre`:
returns `(ignored_files, ignored_directories)` accumulated over the `os.walk`
of this subtree.  At each directory the first `.git` child is removed, the
ignored child directories are recorded (and pruned from descent), the
ignored files are recorded, and the walk descends into the kept children. -/
def walkTree (specs : RuleMap) (pre : List String) :
    FSTree → List (List String) × List (List String)
  | .mk es fs =>
    let ignF := (fs.filter (fun f => is_file_ignored specs pre f)).map (fun f => pre ++ [f])
    let ignD := (ignoredDirNames specs pre es false).map (fun n => pre ++ [n])
    let k := walkKept specs pre es false
    (ignF ++ k.1, ignD ++ k.2)
/-- Descent into the kept (not `.git`, not ignored) children, accumulating
their subtree results in sibling order. -/
def walkKept (specs : RuleMap) (pre : List String) :
    FSEntries → Bool → List (List String) × List (List String)
  | .nil, _ => ([], [])
  | .cons n t rest, gitSeen =>
    if n = ".git" ∧ gitSeen = false then walkKept specs pre rest true
    else if is_directory_ignored specs (pre ++ [n]) then walkKept specs pre rest gitSeen
    else
      let w := walkTree specs (pre ++ [n]) t
      let r := walkKept specs pre rest gitSeen
      (w.1 ++ r.1, w.2 ++ r.2)
end

/-- `find_ignored_files(root_directory)`: collect all specs, return empty
lists when no `.gitignore` was found anywhere, otherwise run the decision
pass from the root. -/
def find_ignored_files (compile : List String → Matcher) (t : FSTree) :
    List (List String) × List (List String) :=
  let specsList := collect_all_gitignore_specs compile t
  if specsList.isEmpty then ([], [])
  else walkTree (lookupRM specsList) [] t

/-- Proper-ancestor test on relative paths: `underDirB d p` holds when `p`
is strictly below directory `d`. -/
def underDirB (d p : List String) : Bool :=
  decide (d.length < p.length) && (p.take d.length == d)

mutual
/-- Structural induction for `FSTree`. -/
def FSTree.ind {P : FSTree → Prop} {Q : FSEntries → Prop}
    (hmk : ∀ es fs, Q es → P (.mk es fs))
    (hnil : Q .nil)
    (hcons : ∀ n t es, P t → Q es → Q (.cons n t es)) :
    ∀ t, P t
  | .mk es fs => hmk es fs (FSEntries.ind hmk hnil hcons es)
/-- Structural induction for `FSEntries`. -/
def FSEntries.ind {P : FSTree → Prop} {Q : FSEntries → Prop}
    (hmk : ∀ es fs, Q es → P (.mk es fs))
    (hnil : Q .nil)
    (hcons : ∀ n t es, P t → Q es → Q (.cons n t es)) :
    ∀ es, Q es
  | .nil => hnil
  | .cons n t rest =>
    hcons n t rest (FSTree.ind hmk hnil hcons t) (FSEntries.ind hmk hnil hcons rest)
end

/-- Entries-only induction (no descent into subtrees). -/
def FSEntries.indList {Q : FSEntries → Prop} (hnil : Q .nil)
    (hcons : ∀ n t es, Q es → Q (.cons n t es)) : ∀ es, Q es
  | .nil => hnil
  | .cons n t rest => hcons n t rest (FSEntries.indList hnil hcons rest)

theorem walkTree_mk (specs : RuleMap) (pre : List String) (es : FSEntries) (fs : List String) :
    walkTree specs pre (.mk es fs) =
      ((fs.filter (fun f => is_file_ignored specs pre f)).map (fun f => pre ++ [f]) ++
         (walkKept specs pre es false).1,
       (ignoredDirNames specs pre es false).map (fun n => pre ++ [n]) ++
         (walkKept specs pre es false).2) := rfl

theorem walkKept_nil (specs : RuleMap) (pre : List String) (g : Bool) :
    walkKept specs pre .nil g = ([], []) := rfl

theorem walkKept_cons (specs : RuleMap) (pre : List String) (n : String) (t : FSTree)
    (rest : FSEntries) (g : Bool) :
    walkKept specs pre (.cons n t rest) g =
      if n = ".git" ∧ g = false then walkKept specs pre rest true
      else if is_directory_ignored specs (pre ++ [n]) then walkKept specs pre rest g
      else ((walkTree specs (pre ++ [n]) t).1 ++ (walkKept specs pre rest g).1,
            (walkTree specs (pre ++ [n]) t).2 ++ (walkKept specs pre rest g).2) := rfl

theorem ignoredDirNames_nil (specs : RuleMap) (pre : List String) (g : Bool) :
    ignoredDirNames specs pre .nil g = [] := rfl

theorem ignoredDirNames_cons (specs : RuleMap) (pre : List String) (n : String) (t : FSTree)
    (rest : FSEntries) (g : Bool) :
    ignoredDirNames specs pre (.cons n t rest) g =
      if n = ".git" ∧ g = false then ignoredDirNames specs pre rest true
      else if is_directory_ignored specs (pre ++ [n]) then
        n :: ignoredDirNames specs pre rest g
      else ignoredDirNames specs pre rest g := rfl

/-- A name reported by the directory-classification loop is a child name and
its path is classified ignored. -/
theorem ignoredDirNames_mem_sub (specs : RuleMap) (pre : List String) :
    ∀ es g n, n ∈ ignoredDirNames specs pre es g →
      n ∈ entryNames es ∧ is_directory_ignored specs (pre ++ [n]) = true := by
  intro es
  induction es using FSEntries.indList with
  | hnil => intro g n h; simp [ignoredDirNames_nil] at h
  | hcons n' t rest ih =>
    intro g n h
    rw [ignoredDirNames_cons] at h
    split_ifs at h with h1 h2
    · rcases ih true n h with ⟨hm, hi⟩
      exact ⟨List.mem_cons_of_mem _ hm, hi⟩
    · rcases List.mem_cons.1 h with he | hm
      · subst he
        exact ⟨List.mem_cons_self _ _, h2⟩
      · rcases ih g n hm with ⟨hm', hi⟩
        exact ⟨List.mem_cons_of_mem _ hm', hi⟩
    · rcases ih g n h with ⟨hm, hi⟩
      exact ⟨List.mem_cons_of_mem _ hm, hi⟩

/-- Every path emitted by the decision pass below `pre` extends `pre`
properly; paths emitted while descending into children extend `pre` by a
child name first. -/
theorem walk_extends (specs : RuleMap) :
    (∀ t pre p, (p ∈ (walkTree specs pre t).1 ∨ p ∈ (walkTree specs pre t).2) →
      ∃ r, r ≠ [] ∧ p = pre ++ r) ∧
    (∀ es pre g p,
      (p ∈ (walkKept specs pre es g).1 ∨ p ∈ (walkKept specs pre es g).2) →
      ∃ n r, n ∈ entryNames es ∧ r ≠ [] ∧ p = pre ++ n :: r) := by
  have hmk : ∀ es fs,
      (∀ pre g p,
        (p ∈ (walkKept specs pre es g).1 ∨ p ∈ (walkKept specs pre es g).2) →
        ∃ n r, n ∈ entryNames es ∧ r ≠ [] ∧ p = pre ++ n :: r) →
      ∀ pre p,
        (p ∈ (walkTree specs pre (.mk es fs)).1 ∨ p ∈ (walkTree specs pre (.mk es fs)).2) →
        ∃ r, r ≠ [] ∧ p = pre ++ r := by
    intro es fs hQ pre p hp
    rw [walkTree_mk] at hp
    simp only [List.mem_append, List.mem_map, List.mem_filter] at hp
    rcases hp with (⟨f, _, rfl⟩ | hk) | (⟨n, _, rfl⟩ | hk)
    · exact ⟨[f], by simp, rfl⟩
    · rcases hQ pre false p (Or.inl hk) with ⟨n, r, _, _, rfl⟩
      exact ⟨n :: r, by simp, rfl⟩
    · exact ⟨[n], by simp, rfl⟩
    · rcases hQ pre false p (Or.inr hk) with ⟨n, r, _, _, rfl⟩
      exact ⟨n :: r, by simp, rfl⟩
  have hnil : ∀ pre g p,
      (p ∈ (walkKept specs pre .nil g).1 ∨ p ∈ (walkKept specs pre .nil g).2) →
      ∃ n r, n ∈ entryNames FSEntries.nil ∧ r ≠ [] ∧ p = pre ++ n :: r := by
    intro pre g p hp
    simp [walkKept_nil] at hp
  have hcons : ∀ n t es,
      (∀ pre p, (p ∈ (walkTree specs pre t).1 ∨ p ∈ (walkTree specs pre t).2) →
        ∃ r, r ≠ [] ∧ p = pre ++ r) →
      (∀ pre g p,
        (p ∈ (walkKept specs pre es g).1 ∨ p ∈ (walkKept specs pre es g).2) →
        ∃ m r, m ∈ entryNames es ∧ r ≠ [] ∧ p = pre ++ m :: r) →
      ∀ pre g p,
        (p ∈ (walkKept specs pre (.cons n t es) g).1 ∨
         p ∈ (walkKept specs pre (.cons n t es) g).2) →
        ∃ m r, m ∈ entryNames (.cons n t es) ∧ r ≠ [] ∧ p = pre ++ m :: r := by
    intro n t es hP hQ pre g p hp
    rw [walkKept_cons] at hp
    split_ifs at hp with h1 h2
    · rcases hQ pre true p hp with ⟨m, r, hm, hr, rfl⟩
      exact ⟨m, r, List.mem_cons_of_mem _ hm, hr, rfl⟩
    · rcases hQ pre g p hp with ⟨m, r, hm, hr, rfl⟩
      exact ⟨m, r, List.mem_cons_of_mem _ hm, hr, rfl⟩
    · simp only [List.mem_append] at hp
      rcases hp with (hw | hk) | (hw | hk)
      · rcases hP (pre ++ [n]) p (Or.inl hw) with ⟨r, hr, rfl⟩
        exact ⟨n, r, List.mem_cons_self _ _, hr, by simp⟩
      · rcases hQ pre g p (Or.inl hk) with ⟨m, r, hm, hr, rfl⟩
        exact ⟨m, r, List.mem_cons_of_mem _ hm, hr, rfl⟩
      · rcases hP (pre ++ [n]) p (Or.inr hw) with ⟨r, hr, rfl⟩
        exact ⟨n, r, List.mem_cons_self _ _, hr, by simp⟩
      · rcases hQ pre g p (Or.inr hk) with ⟨m, r, hm, hr, rfl⟩
        exact ⟨m, r, List.mem_cons_of_mem _ hm, hr, rfl⟩
  exact ⟨fun t => FSTree.ind hmk hnil hcons t, fun es => FSEntries.ind hmk hnil hcons es⟩

/-- Every directory recorded by the decision pass is classified ignored. -/
theorem walk_dirs_ignored (specs : RuleMap) :
    (∀ t pre D, D ∈ (walkTree specs pre t).2 → is_directory_ignored specs D = true) ∧
    (∀ es pre g D, D ∈ (walkKept specs pre es g).2 →
      is_directory_ignored specs D = true) := by
  have hmk : ∀ es fs,
      (∀ pre g D, D ∈ (walkKept specs pre es g).2 →
        is_directory_ignored specs D = true) →
      ∀ pre D, D ∈ (walkTree specs pre (.mk es fs)).2 →
        is_directory_ignored specs D = true := by
    intro es fs hQ pre D hD
    rw [walkTree_mk] at hD
    simp only [List.mem_append, List.mem_map] at hD
    rcases hD with ⟨n, hn, rfl⟩ | hk
    · exact (ignoredDirNames_mem_sub specs pre es false n hn).2
    · exact hQ pre false D hk
  have hnil : ∀ pre g D, D ∈ (walkKept specs pre .nil g).2 →
      is_directory_ignored specs D = true := by
    intro pre g D hD
    simp [walkKept_nil] at hD
  have hcons : ∀ n t es,
      (∀ pre D, D ∈ (walkTree specs pre t).2 → is_directory_ignored specs D = true) →
      (∀ pre g D, D ∈ (walkKept specs pre es g).2 →
        is_directory_ignored specs D = true) →
      ∀ pre g D, D ∈ (walkKept specs pre (.cons n t es) g).2 →
        is_directory_ignored specs D = true := by
    intro n t es hP hQ pre g D hD
    rw [walkKept_cons] at hD
    split_ifs at hD with h1 h2
    · exact hQ pre true D hD
    · exact hQ pre g D hD
    · simp only [List.mem_append] at hD
      rcases hD with hw | hk
      · exact hP (pre ++ [n]) D hw
      · exact hQ pre g D hk
  exact ⟨fun t => FSTree.ind hmk hnil hcons t, fun es => FSEntries.ind hmk hnil hcons es⟩

/-- Along any emitted path, every directory strictly between the walk's
starting directory and the path itself was classified kept (not ignored):
the walk only descends into kept children. -/
theorem walk_ancestors_kept (specs : RuleMap) :
    (∀ t pre p, (p ∈ (walkTree specs pre t).1 ∨ p ∈ (walkTree specs pre t).2) →
      ∀ k, pre.length < k → k < p.length →
        is_directory_ignored specs (p.take k) = false) ∧
    (∀ es pre g p,
      (p ∈ (walkKept specs pre es g).1 ∨ p ∈ (walkKept specs pre es g).2) →
      ∀ k, pre.length < k → k < p.length →
        is_directory_ignored specs (p.take k) = false) := by
  have hmk : ∀ es fs,
      (∀ pre g p,
        (p ∈ (walkKept specs pre es g).1 ∨ p ∈ (walkKept specs pre es g).2) →
        ∀ k, pre.length < k → k < p.length →
          is_directory_ignored specs (p.take k) = false) →
      ∀ pre p,
        (p ∈ (walkTree specs pre (.mk es fs)).1 ∨
         p ∈ (walkTree specs pre (.mk es fs)).2) →
        ∀ k, pre.length < k → k < p.length →
          is_directory_ignored specs (p.take k) = false := by
    intro es fs hQ pre p hp k hk1 hk2
    rw [walkTree_mk] at hp
    simp only [List.mem_append, List.mem_map, List.mem_filter] at hp
    rcases hp with (⟨f, _, rfl⟩ | hk) | (⟨n, _, rfl⟩ | hk)
    · simp [List.length_append] at hk2; omega
    · exact hQ pre false p (Or.inl hk) k hk1 hk2
    · simp [List.length_append] at hk2; omega
    · exact hQ pre false p (Or.inr hk) k hk1 hk2
  have hnil : ∀ pre g p,
      (p ∈ (walkKept specs pre .nil g).1 ∨ p ∈ (walkKept specs pre .nil g).2) →
      ∀ k, pre.length < k → k < p.length →
        is_directory_ignored specs (p.take k) = false := by
    intro pre g p hp
    simp [walkKept_nil] at hp
  have hcons : ∀ n t es,
      (∀ pre p, (p ∈ (walkTree specs pre t).1 ∨ p ∈ (walkTree specs pre t).2) →
        ∀ k, pre.length < k → k < p.length →
          is_directory_ignored specs (p.take k) = false) →
      (∀ pre g p,
        (p ∈ (walkKept specs pre es g).1 ∨ p ∈ (walkKept specs pre es g).2) →
        ∀ k, pre.length < k → k < p.length →
          is_directory_ignored specs (p.take k) = false) →
      ∀ pre g p,
        (p ∈ (walkKept specs pre (.cons n t es) g).1 ∨
         p ∈ (walkKept specs pre (.cons n t es) g).2) →
        ∀ k, pre.length < k → k < p.length →
          is_directory_ignored specs (p.take k) = false := by
    intro n t es hP hQ pre g p hp k hk1 hk2
    rw [walkKept_cons] at hp
    split_ifs at hp with h1 h2
    · exact hQ pre true p hp k hk1 hk2
    · exact hQ pre g p hp k hk1 hk2
    · have hw_or : (p ∈ (walkTree specs (pre ++ [n]) t).1 ∨
          p ∈ (walkTree specs (pre ++ [n]) t).2) ∨
          (p ∈ (walkKept specs pre es g).1 ∨ p ∈ (walkKept specs pre es g).2) := by
        simp only [List.mem_append] at hp
        tauto
      rcases hw_or with hw | hk
      · rcases Nat.lt_or_ge (pre.length + 1) k with hgt | hle
        · exact hP (pre ++ [n]) p hw k (by simpa using hgt) hk2
        · have hkeq : k = pre.length + 1 := by omega
          subst hkeq
          rcases (walk_extends specs).1 t (pre ++ [n]) p hw with ⟨r, _, rfl⟩
          have : ((pre ++ [n]) ++ r).take (pre ++ [n]).length = pre ++ [n] :=
            List.take_left _ _
          simp only [List.length_append, List.length_cons, List.length_nil] at this
          rw [show pre.length + 1 = pre.length + (0 + 1) by omega] at this ⊢
          rw [this]
          exact Bool.not_eq_true _ ▸ (Bool.eq_false_iff.2 h2)
      · exact hQ pre g p hk k hk1 hk2
  exact ⟨fun t => FSTree.ind hmk hnil hcons t, fun es => FSEntries.ind hmk hnil hcons es⟩

/-- C2 — Containment: once the scan classifies a directory `D` as ignored,
no path strictly below `D` (file or directory) appears in either output of
`find_ignored_files`: the walk records `D` and never descends into it, and
any other recorded path only descends through kept directories. -/
theorem C2_ignored_directory_containment
    (compile : List String → Matcher) (t : FSTree) (D p : List String)
    (hD : D ∈ (find_ignored_files compile t).2)
    (hp : p ∈ (find_ignored_files compile t).1 ∨ p ∈ (find_ignored_files compile t).2) :
    underDirB D p = false := by
  by_cases hem : (collect_all_gitignore_specs compile t).isEmpty
  · simp [find_ignored_files, hem] at hD
  · simp only [find_ignored_files, hem, if_neg, Bool.false_eq_true] at hD hp
    set specs := lookupRM (collect_all_gitignore_specs compile t) with hs
    cases hud : underDirB D p
    · rfl
    · exfalso
      have hud' : D.length < p.length ∧ p.take D.length = D := by
        have := hud
        unfold underDirB at this
        simp only [Bool.and_eq_true, decide_eq_true_eq, beq_iff_eq] at this
        exact this
      have hDig : is_directory_ignored specs D = true :=
        (walk_dirs_ignored specs).1 t [] D hD
      have hDne : D ≠ [] := by
        rcases (walk_extends specs).1 t [] D (Or.inr hD) with ⟨r, hr, rfl⟩
        simpa using hr
      have hkept : is_directory_ignored specs (p.take D.length) = false := by
        apply (walk_ancestors_kept specs).1 t [] p hp D.length
        · simpa using List.length_pos.2 hDne
        · exact hud'.1
      rw [hud'.2] at hkept
      rw [hDig] at hkept
      exact Bool.true_eq_false ▸ hkept

/-- Concrete matcher for witnesses: the pattern set `build`, `obj.o`. -/
def matcher0 : Matcher := fun rel _ => rel == ["build"] || rel == ["obj.o"]

/-- Concrete pattern compilation for witnesses: every `.gitignore` compiles
to `matcher0`. -/
def compile0 : List String → Matcher := fun _ => matcher0

/-- Concrete tree for witnesses: root with `.gitignore`, `obj.o`, `app.txt`
and a child directory `build` containing file `x`. -/
def tree0 : FSTree :=
  .mk (.cons "build" (.mk .nil ["x"]) .nil) [".gitignore", "obj.o", "app.txt"]

/-- Witness for C2 at a concrete input: the scan of `tree0` classifies
`build` ignored and `obj.o` ignored, and `obj.o` is not below `build`. -/
theorem C2_witness : underDirB ["build"] ["obj.o"] = false :=
  C2_ignored_directory_containment compile0 tree0 ["build"] ["obj.o"]
    (by decide) (Or.inl (by decide))

theorem noDupB_iff : ∀ l : List String, noDupB l = true ↔ l.Nodup := by
  intro l
  induction l with
  | nil => simp [noDupB]
  | cons x xs ih =>
    simp [noDupB, List.nodup_cons, ih, List.contains_eq_any_beq]

/-- The classification loop reports a subsequence of the child names. -/
theorem ignoredDirNames_sublist (specs : RuleMap) (pre : List String) :
    ∀ es g, List.Sublist (ignoredDirNames specs pre es g) (entryNames es) := by
  intro es
  induction es using FSEntries.indList with
  | hnil => intro g; simp [ignoredDirNames_nil, entryNames]
  | hcons n t rest ih =>
    intro g
    rw [ignoredDirNames_cons]
    show List.Sublist _ (n :: entryNames rest)
    split_ifs with h1 h2
    · exact List.Sublist.cons n (ih true)
    · exact List.Sublist.cons₂ n (ih g)
    · exact List.Sublist.cons n (ih g)

theorem perm_middle_swap {α : Type} (a b c d : List α) :
    ((a ++ b) ++ (c ++ d)).Perm ((a ++ c) ++ (b ++ d)) := by
  simp only [List.append_assoc]
  apply List.Perm.append_left a
  have h1 : b ++ (c ++ d) = (b ++ c) ++ d := by rw [List.append_assoc]
  have h2 : c ++ (b ++ d) = (c ++ b) ++ d := by rw [List.append_assoc]
  rw [h1, h2]
  exact List.Perm.append_right d List.perm_append_comm

theorem appendSingle_injective (pre : List String) :
    Function.Injective (fun x : String => pre ++ [x]) := by
  intro a b h
  have := congrArg (List.drop pre.length) h
  simpa [List.drop_left] using this

/-- No path is recorded twice across the two outputs of the decision pass,
provided the tree is well-formed (sibling names are distinct). -/
theorem walk_nodup (specs : RuleMap) :
    (∀ t pre, wellFormedT t = true →
      ((walkTree specs pre t).1 ++ (walkTree specs pre t).2).Nodup) ∧
    (∀ es pre g, (entryNames es).Nodup → wellFormedE es = true →
      ((walkKept specs pre es g).1 ++ (walkKept specs pre es g).2).Nodup) := by
  have hmk : ∀ es fs,
      (∀ pre g, (entryNames es).Nodup → wellFormedE es = true →
        ((walkKept specs pre es g).1 ++ (walkKept specs pre es g).2).Nodup) →
      ∀ pre, wellFormedT (.mk es fs) = true →
        ((walkTree specs pre (.mk es fs)).1 ++ (walkTree specs pre (.mk es fs)).2).Nodup := by
    intro es fs hQ pre hwf
    have hwf' : noDupB (entryNames es ++ fs) = true ∧ wellFormedE es = true := by
      have : wellFormedT (.mk es fs) =
          (noDupB (entryNames es ++ fs) && wellFormedE es) := rfl
      rw [this, Bool.and_eq_true] at hwf
      exact hwf
    have hnodupNF : (entryNames es ++ fs).Nodup := (noDupB_iff _).1 hwf'.1
    rw [walkTree_mk]
    apply (perm_middle_swap _ _ _ _).nodup_iff.2
    rw [List.nodup_append]
    refine ⟨?_, ?_, ?_⟩
    · -- this-level paths: files then ignored dir names, mapped under pre
      rw [← List.map_append]
      apply List.Nodup.map (appendSingle_injective pre)
      have hsub : List.Sublist
          (fs.filter (fun f => is_file_ignored specs pre f) ++
            ignoredDirNames specs pre es false) (fs ++ entryNames es) :=
        List.Sublist.append (List.filter_sublist fs) (ignoredDirNames_sublist specs pre es false)
      exact (List.nodup_append_comm.1 hnodupNF).sublist hsub
    · exact hQ pre false (hnodupNF.of_append_left) hwf'.2
    · -- this-level paths have length `pre.length + 1`; descent paths are longer
      intro a ha hb
      simp only [List.mem_append, List.mem_map] at ha
      have hlen1 : a.length = pre.length + 1 := by
        rcases ha with ⟨x, _, rfl⟩ | ⟨x, _, rfl⟩ <;> simp
      have hlen2 : pre.length + 2 ≤ a.length := by
        rcases (walk_extends specs).2 es pre false a (List.mem_append.1 hb) with
          ⟨m, r, _, hr, rfl⟩
        cases r with
        | nil => exact absurd rfl hr
        | cons y ys => simp [List.length_append]
      omega
  have hnil : ∀ pre g, (entryNames FSEntries.nil).Nodup →
      wellFormedE FSEntries.nil = true →
      ((walkKept specs pre .nil g).1 ++ (walkKept specs pre .nil g).2).Nodup := by
    intro pre g _ _
    simp [walkKept_nil]
  have hcons : ∀ n t es,
      (∀ pre, wellFormedT t = true →
        ((walkTree specs pre t).1 ++ (walkTree specs pre t).2).Nodup) →
      (∀ pre g, (entryNames es).Nodup → wellFormedE es = true →
        ((walkKept specs pre es g).1 ++ (walkKept specs pre es g).2).Nodup) →
      ∀ pre g, (entryNames (.cons n t es)).Nodup →
        wellFormedE (.cons n t es) = true →
        ((walkKept specs pre (.cons n t es) g).1 ++
          (walkKept specs pre (.cons n t es) g).2).Nodup := by
    intro n t es hP hQ pre g hnd hwf
    have hnd' : n ∉ entryNames es ∧ (entryNames es).Nodup := by
      have : entryNames (.cons n t es) = n :: entryNames es := rfl
      rw [this, List.nodup_cons] at hnd
      exact hnd
    have hwf' : wellFormedT t = true ∧ wellFormedE es = true := by
      have : wellFormedE (.cons n t es) = (wellFormedT t && wellFormedE es) := rfl
      rw [this, Bool.and_eq_true] at hwf
      exact hwf
    rw [walkKept_cons]
    split_ifs with h1 h2
    · exact hQ pre true hnd'.2 hwf'.2
    · exact hQ pre g hnd'.2 hwf'.2
    · apply (perm_middle_swap _ _ _ _).nodup_iff.2
      rw [List.nodup_append]
      refine ⟨hP (pre ++ [n]) hwf'.1, hQ pre g hnd'.2 hwf'.2, ?_⟩
      intro a ha hb
      have ha' : ∃ r, r ≠ [] ∧ a = (pre ++ [n]) ++ r := by
        rcases (walk_extends specs).1 t (pre ++ [n]) a (List.mem_append.1 ha) with
          ⟨r, hr, rfl⟩
        exact ⟨r, hr, rfl⟩
      have hb' : ∃ m r, m ∈ entryNames es ∧ a = pre ++ m :: r := by
        rcases (walk_extends specs).2 es pre g a (List.mem_append.1 hb) with
          ⟨m, r, hm, _, rfl⟩
        exact ⟨m, r, hm, rfl⟩
      rcases ha' with ⟨r1, _, he1⟩
      rcases hb' with ⟨m, r2, hm, he2⟩
      have : n :: r1 = m :: r2 := by
        have h12 : pre ++ n :: r1 = pre ++ m :: r2 := by
          rw [← he2, he1]; simp
        have := congrArg (List.drop pre.length) h12
        simpa [List.drop_left] using this
      have hnm : n = m := by injection this
      exact hnd'.1 (hnm ▸ hm)
  exact ⟨fun t => FSTree.ind hmk hnil hcons t, fun es => FSEntries.ind hmk hnil hcons es⟩

/-- C8 — On a well-formed tree, every path produced by the decision pass
appears in exactly one of the two outputs of `find_ignored_files`: each
output is duplicate-free and no path is in both. -/
theorem C8_outputs_disjoint_and_duplicate_free
    (compile : List String → Matcher) (t : FSTree) (hwf : wellFormedT t = true) :
    (find_ignored_files compile t).1.Nodup ∧
    (find_ignored_files compile t).2.Nodup ∧
    ∀ p, p ∈ (find_ignored_files compile t).1 → p ∉ (find_ignored_files compile t).2 := by
  have key : ((find_ignored_files compile t).1 ++ (find_ignored_files compile t).2).Nodup := by
    by_cases hem : (collect_all_gitignore_specs compile t).isEmpty
    · simp [find_ignored_files, hem]
    · simp only [find_ignored_files, hem, if_neg, Bool.false_eq_true]
      exact (walk_nodup (lookupRM (collect_all_gitignore_specs compile t))).1 t [] hwf
  rw [List.nodup_append] at key
  exact ⟨key.1, key.2.1, fun p hp hp2 => key.2.2 hp hp2⟩

/-- Witness for C8 at a concrete input: the scan of the well-formed `tree0`
has duplicate-free outputs. -/
theorem C8_witness : (find_ignored_files compile0 tree0).1.Nodup :=
  (C8_outputs_disjoint_and_duplicate_free compile0 tree0 (by decide)).1

theorem dirPathsT_mk (pre : List String) (es : FSEntries) (fs : List String) :
    dirPathsT pre (.mk es fs) = dirPathsE pre es := rfl

theorem dirPathsE_nil (pre : List String) : dirPathsE pre .nil = [] := rfl

theorem dirPathsE_cons (pre : List String) (n : String) (t : FSTree) (rest : FSEntries) :
    dirPathsE pre (.cons n t rest) =
      (pre ++ [n]) :: (dirPathsT (pre ++ [n]) t ++ dirPathsE pre rest) := rfl

theorem filePathsT_mk (pre : List String) (es : FSEntries) (fs : List String) :
    filePathsT pre (.mk es fs) =
      fs.map (fun f => pre ++ [f]) ++ filePathsE pre es := rfl

theorem filePathsE_nil (pre : List String) : filePathsE pre .nil = [] := rfl

theorem filePathsE_cons (pre : List String) (n : String) (t : FSTree) (rest : FSEntries) :
    filePathsE pre (.cons n t rest) =
      filePathsT (pre ++ [n]) t ++ filePathsE pre rest := rfl

/-- Membership in the child-paths list of an entry list, unfolded to the
contributing entry. -/
theorem dirPathsE_mem (pre : List String) (p : List String) :
    ∀ es, p ∈ dirPathsE pre es ↔
      ∃ n t', (n, t') ∈ entriesToList es ∧
        (p = pre ++ [n] ∨ p ∈ dirPathsT (pre ++ [n]) t') := by
  intro es
  induction es using FSEntries.indList with
  | hnil => simp [dirPathsE_nil, entriesToList]
  | hcons n t rest ih =>
    rw [dirPathsE_cons]
    simp only [List.mem_cons, List.mem_append, ih, entriesToList]
    constructor
    · rintro (rfl | hd | ⟨m, t', hm, hcase⟩)
      · exact ⟨n, t, Or.inl rfl, Or.inl rfl⟩
      · exact ⟨n, t, Or.inl rfl, Or.inr hd⟩
      · exact ⟨m, t', Or.inr hm, hcase⟩
    · rintro ⟨m, t', (he | hm), hcase⟩
      · rcases Prod.mk.injEq .. ▸ he with ⟨rfl, rfl⟩
        · rcases hcase with rfl | hd
          · exact Or.inl rfl
          · exact Or.inr (Or.inl hd)
      · exact Or.inr (Or.inr ⟨m, t', hm, hcase⟩)

theorem filePathsE_mem (pre : List String) (p : List String) :
    ∀ es, p ∈ filePathsE pre es ↔
      ∃ n t', (n, t') ∈ entriesToList es ∧ p ∈ filePathsT (pre ++ [n]) t' := by
  intro es
  induction es using FSEntries.indList with
  | hnil => simp [filePathsE_nil, entriesToList]
  | hcons n t rest ih =>
    rw [filePathsE_cons]
    simp only [List.mem_append, ih, entriesToList, List.mem_cons]
    constructor
    · rintro (hd | ⟨m, t', hm, hcase⟩)
      · exact ⟨n, t, Or.inl rfl, hd⟩
      · exact ⟨m, t', Or.inr hm, hcase⟩
    · rintro ⟨m, t', (he | hm), hcase⟩
      · rcases Prod.mk.injEq .. ▸ he with ⟨rfl, rfl⟩
        exact Or.inl hcase
      · exact Or.inr ⟨m, t', hm, hcase⟩

/-- Characterization of the classification loop on a well-formed entry list:
a name is reported iff it is a child name other than `.git` whose path is
classified ignored. -/
theorem ignoredDirNames_char (specs : RuleMap) (pre : List String) :
    ∀ es g, (g = true → ".git" ∉ entryNames es) → (entryNames es).Nodup →
      ∀ n, n ∈ ignoredDirNames specs pre es g ↔
        (n ∈ entryNames es ∧ n ≠ ".git" ∧
          is_directory_ignored specs (pre ++ [n]) = true) := by
  intro es
  induction es using FSEntries.indList with
  | hnil =>
    intro g _ _ n
    simp [ignoredDirNames_nil, entryNames]
  | hcons n' t rest ih =>
    intro g hflag hnd n
    have hnames : entryNames (.cons n' t rest) = n' :: entryNames rest := rfl
    rw [hnames, List.nodup_cons] at hnd
    rw [ignoredDirNames_cons, hnames]
    split_ifs with h1 h2
    · -- first `.git` entry skipped
      rcases h1 with ⟨rfl, rfl⟩
      rw [ih true (fun _ => hnd.1) hnd.2 n]
      constructor
      · rintro ⟨hm, hne, hig⟩
        exact ⟨List.mem_cons_of_mem _ hm, hne, hig⟩
      · rintro ⟨hm, hne, hig⟩
        rcases List.mem_cons.1 hm with rfl | hm'
        · exact absurd rfl hne
        · exact ⟨hm', hne, hig⟩
    · -- entry processed and classified ignored
      have hne' : n' ≠ ".git" := by
        intro hgit
        subst hgit
        rcases Bool.eq_false_or_eq_true g with hg | hg
        · exact hflag hg (hnames ▸ List.mem_cons_self _ _)
        · exact h1 ⟨rfl, hg⟩
      have hflag' : g = true → ".git" ∉ entryNames rest := by
        intro hg
        intro hm
        exact hflag hg (hnames ▸ List.mem_cons_of_mem _ hm)
      rw [List.mem_cons, ih g hflag' hnd.2 n]
      constructor
      · rintro (rfl | ⟨hm, hne, hig⟩)
        · exact ⟨List.mem_cons_self _ _, hne', h2⟩
        · exact ⟨List.mem_cons_of_mem _ hm, hne, hig⟩
      · rintro ⟨hm, hne, hig⟩
        rcases List.mem_cons.1 hm with rfl | hm'
        · exact Or.inl rfl
        · exact Or.inr ⟨hm', hne, hig⟩
    · -- entry processed and classified kept
      have hne' : n' ≠ ".git" := by
        intro hgit
        subst hgit
        rcases Bool.eq_false_or_eq_true g with hg | hg
        · exact hflag hg (hnames ▸ List.mem_cons_self _ _)
        · exact h1 ⟨rfl, hg⟩
      have hflag' : g = true → ".git" ∉ entryNames rest := by
        intro hg hm
        exact hflag hg (hnames ▸ List.mem_cons_of_mem _ hm)
      rw [ih g hflag' hnd.2 n]
      constructor
      · rintro ⟨hm, hne, hig⟩
        exact ⟨List.mem_cons_of_mem _ hm, hne, hig⟩
      · rintro ⟨hm, hne, hig⟩
        rcases List.mem_cons.1 hm with rfl | hm'
        · rw [hig] at h2
          exact absurd rfl h2
        · exact ⟨hm', hne, hig⟩

theorem mem_entryNames (n : String) :
    ∀ es, n ∈ entryNames es ↔ ∃ t', (n, t') ∈ entriesToList es := by
  intro es
  induction es using FSEntries.indList with
  | hnil => simp [entryNames, entriesToList]
  | hcons m t rest ih =>
    show n ∈ m :: entryNames rest ↔ _
    simp only [List.mem_cons, ih, entriesToList]
    constructor
    · rintro (rfl | ⟨t', ht'⟩)
      · exact ⟨t, Or.inl rfl⟩
      · exact ⟨t', Or.inr ht'⟩
    · rintro ⟨t', he | hm⟩
      · rcases Prod.mk.injEq .. ▸ he with ⟨rfl, rfl⟩
        exact Or.inl rfl
      · exact Or.inr ⟨t', hm⟩

/-- Every recorded directory path extends the enumeration base properly. -/
theorem dirPaths_extends :
    (∀ t pre p, p ∈ dirPathsT pre t → ∃ r, r ≠ [] ∧ p = pre ++ r) ∧
    (∀ es pre p, p ∈ dirPathsE pre es → ∃ r, r ≠ [] ∧ p = pre ++ r) := by
  have hmk : ∀ es fs,
      (∀ pre p, p ∈ dirPathsE pre es → ∃ r, r ≠ [] ∧ p = pre ++ r) →
      ∀ pre p, p ∈ dirPathsT pre (.mk es fs) → ∃ r, r ≠ [] ∧ p = pre ++ r := by
    intro es fs hQ pre p hp
    rw [dirPathsT_mk] at hp
    exact hQ pre p hp
  have hnil : ∀ pre p, p ∈ dirPathsE pre .nil → ∃ r, r ≠ [] ∧ p = pre ++ r := by
    intro pre p hp
    simp [dirPathsE_nil] at hp
  have hcons : ∀ n t es,
      (∀ pre p, p ∈ dirPathsT pre t → ∃ r, r ≠ [] ∧ p = pre ++ r) →
      (∀ pre p, p ∈ dirPathsE pre es → ∃ r, r ≠ [] ∧ p = pre ++ r) →
      ∀ pre p, p ∈ dirPathsE pre (.cons n t es) → ∃ r, r ≠ [] ∧ p = pre ++ r := by
    intro n t es hP hQ pre p hp
    rw [dirPathsE_cons] at hp
    rcases List.mem_cons.1 hp with rfl | hp'
    · exact ⟨[n], by simp, rfl⟩
    · rcases List.mem_append.1 hp' with hd | he
      · rcases hP (pre ++ [n]) p hd with ⟨r, _, rfl⟩
        exact ⟨n :: r, by simp, by simp⟩
      · exact hQ pre p he
  exact ⟨fun t => FSTree.ind hmk hnil hcons t, fun es => FSEntries.ind hmk hnil hcons es⟩

/-- Every recorded file path extends the enumeration base properly. -/
theorem filePaths_extends :
    (∀ t pre p, p ∈ filePathsT pre t → ∃ r, r ≠ [] ∧ p = pre ++ r) ∧
    (∀ es pre p, p ∈ filePathsE pre es → ∃ r, r ≠ [] ∧ p = pre ++ r) := by
  have hmk : ∀ es fs,
      (∀ pre p, p ∈ filePathsE pre es → ∃ r, r ≠ [] ∧ p = pre ++ r) →
      ∀ pre p, p ∈ filePathsT pre (.mk es fs) → ∃ r, r ≠ [] ∧ p = pre ++ r := by
    intro es fs hQ pre p hp
    rw [filePathsT_mk] at hp
    rcases List.mem_append.1 hp with hf | he
    · rcases List.mem_map.1 hf with ⟨f, _, rfl⟩
      exact ⟨[f], by simp, rfl⟩
    · exact hQ pre p he
  have hnil : ∀ pre p, p ∈ filePathsE pre .nil → ∃ r, r ≠ [] ∧ p = pre ++ r := by
    intro pre p hp
    simp [filePathsE_nil] at hp
  have hcons : ∀ n t es,
      (∀ pre p, p ∈ filePathsT pre t → ∃ r, r ≠ [] ∧ p = pre ++ r) →
      (∀ pre p, p ∈ filePathsE pre es → ∃ r, r ≠ [] ∧ p = pre ++ r) →
      ∀ pre p, p ∈ filePathsE pre (.cons n t es) → ∃ r, r ≠ [] ∧ p = pre ++ r := by
    intro n t es hP hQ pre p hp
    rw [filePathsE_cons] at hp
    rcases List.mem_append.1 hp with hd | he
    · rcases hP (pre ++ [n]) p hd with ⟨r, _, rfl⟩
      exact ⟨n :: r, by simp, by simp⟩
    · exact hQ pre p he
  exact ⟨fun t => FSTree.ind hmk hnil hcons t, fun es => FSEntries.ind hmk hnil hcons es⟩

theorem cons_contains_git (n : String) (r : List String) :
    (n :: r).contains ".git" = false ↔ n ≠ ".git" ∧ r.contains ".git" = false := by
  simp only [List.contains_cons, Bool.or_eq_false_iff, beq_eq_false_iff_ne]
  constructor
  · rintro ⟨h1, h2⟩
    exact ⟨Ne.symm h1, h2⟩
  · rintro ⟨h1, h2⟩
    exact ⟨Ne.symm h1, h2⟩

theorem take_after_append_cons (pre : List String) (n : String) (r : List String) :
    (pre ++ n :: r).take (pre.length + 1) = pre ++ [n] := by
  have h : pre ++ n :: r = (pre ++ [n]) ++ r := by simp
  rw [h]
  have := List.take_left (pre ++ [n]) r
  simpa using this

theorem drop_after_append_cons (pre : List String) (n : String) (r : List String) :
    (pre ++ n :: r).drop (pre.length + 1) = r := by
  have h : pre ++ n :: r = (pre ++ [n]) ++ r := by simp
  rw [h]
  have h2 := List.drop_left (pre ++ [n]) r
  rw [List.length_append] at h2
  exact h2

/-- All directories strictly between the walk's base and `p` are classified
kept. -/
def keptBetween (specs : RuleMap) (pre p : List String) : Prop :=
  ∀ k, pre.length < k → k < p.length → is_directory_ignored specs (p.take k) = false

/-- Semantic condition for a directory path to be reported by the decision
pass started at `pre` on tree `t`: it is a directory of the tree below
`pre`, none of its components below `pre` is `.git`, it is classified
ignored, and every directory strictly between `pre` and it is kept. -/
def dirEmitSpec (specs : RuleMap) (pre p : List String) (t : FSTree) : Prop :=
  p ∈ dirPathsT pre t ∧ (p.drop pre.length).contains ".git" = false ∧
  is_directory_ignored specs p = true ∧ keptBetween specs pre p

/-- Characterization of the ignored-directory output of the decision pass on
a well-formed tree. -/
theorem walk_dir_char (specs : RuleMap) :
    (∀ t pre p, wellFormedT t = true →
      (p ∈ (walkTree specs pre t).2 ↔ dirEmitSpec specs pre p t)) ∧
    (∀ es pre g p, (g = true → ".git" ∉ entryNames es) → (entryNames es).Nodup →
      wellFormedE es = true →
      (p ∈ (walkKept specs pre es g).2 ↔
        ∃ n t', (n, t') ∈ entriesToList es ∧ n ≠ ".git" ∧
          is_directory_ignored specs (pre ++ [n]) = false ∧
          dirEmitSpec specs (pre ++ [n]) p t')) := by
  have hmk : ∀ es fs,
      (∀ pre g p, (g = true → ".git" ∉ entryNames es) → (entryNames es).Nodup →
        wellFormedE es = true →
        (p ∈ (walkKept specs pre es g).2 ↔
          ∃ n t', (n, t') ∈ entriesToList es ∧ n ≠ ".git" ∧
            is_directory_ignored specs (pre ++ [n]) = false ∧
            dirEmitSpec specs (pre ++ [n]) p t')) →
      ∀ pre p, wellFormedT (.mk es fs) = true →
        (p ∈ (walkTree specs pre (.mk es fs)).2 ↔ dirEmitSpec specs pre p (.mk es fs)) := by
    intro es fs hQ pre p hwf
    have hwf' : noDupB (entryNames es ++ fs) = true ∧ wellFormedE es = true := by
      have h : wellFormedT (.mk es fs) =
          (noDupB (entryNames es ++ fs) && wellFormedE es) := rfl
      rw [h, Bool.and_eq_true] at hwf
      exact hwf
    have hnd : (entryNames es).Nodup :=
      ((noDupB_iff _).1 hwf'.1).of_append_left
    have hflag0 : (false = true → ".git" ∉ entryNames es) := fun h => Bool.noConfusion h
    rw [walkTree_mk]
    simp only [List.mem_append, List.mem_map]
    rw [hQ pre false p hflag0 hnd hwf'.2]
    unfold dirEmitSpec
    rw [dirPathsT_mk]
    constructor
    · rintro (⟨n, hn, rfl⟩ | ⟨n, t', hentry, hne, hkeptn, hspec⟩)
      · -- recorded at this level
        rcases (ignoredDirNames_char specs pre es false hflag0 hnd n).1 hn with
          ⟨hmem, hne, hig⟩
        rcases (mem_entryNames n es).1 hmem with ⟨t', hentry⟩
        refine ⟨(dirPathsE_mem pre _ es).2 ⟨n, t', hentry, Or.inl rfl⟩, ?_, hig, ?_⟩
        · rw [List.drop_left]
          exact (cons_contains_git n []).2 ⟨hne, rfl⟩
        · intro k hk1 hk2
          rw [List.length_append] at hk2
          simp only [List.length_cons, List.length_nil] at hk2
          omega
      · -- recorded during descent into a kept child
        rcases dirPaths_extends.1 t' (pre ++ [n]) p hspec.1 with ⟨r, hr, hpe⟩
        have hpe' : p = pre ++ n :: r := by rw [hpe]; simp
        refine ⟨(dirPathsE_mem pre _ es).2 ⟨n, t', hentry, Or.inr hspec.1⟩, ?_,
          hspec.2.2.1, ?_⟩
        · rw [hpe', List.drop_left]
          refine (cons_contains_git n r).2 ⟨hne, ?_⟩
          have hc := hspec.2.1
          rw [hpe'] at hc
          simp only [List.length_append, List.length_cons, List.length_nil] at hc
          rw [drop_after_append_cons] at hc
          exact hc
        · intro k hk1 hk2
          rcases Nat.lt_or_ge (pre.length + 1) k with hgt | hle
          · apply hspec.2.2.2 k _ hk2
            simp only [List.length_append, List.length_cons, List.length_nil]
            omega
          · have hkeq : k = pre.length + 1 := by omega
            subst hkeq
            rw [hpe', take_after_append_cons]
            exact hkeptn
    · rintro ⟨hmem, hgit, hig, hkb⟩
      rcases (dirPathsE_mem pre p es).1 hmem with ⟨n, t', hentry, hcase⟩
      rcases hcase with rfl | hd
      · -- the path is an immediate child
        left
        have hgit' : n ≠ ".git" := by
          rw [List.drop_left] at hgit
          exact ((cons_contains_git n []).1 hgit).1
        refine ⟨n, ?_, rfl⟩
        apply (ignoredDirNames_char specs pre es false hflag0 hnd n).2
        exact ⟨(mem_entryNames n es).2 ⟨t', hentry⟩, hgit', hig⟩
      · -- the path lies deeper
        right
        rcases dirPaths_extends.1 t' (pre ++ [n]) p hd with ⟨r, hr, hpe⟩
        have hpe' : p = pre ++ n :: r := by rw [hpe]; simp
        have hlen : pre.length + 1 < p.length := by
          rw [hpe', List.length_append, List.length_cons]
          cases r with
          | nil => exact absurd rfl hr
          | cons y ys => simp only [List.length_cons]; omega
        have hgitn : n ≠ ".git" ∧ r.contains ".git" = false := by
          rw [hpe', List.drop_left] at hgit
          exact (cons_contains_git n r).1 hgit
        have hkeptn : is_directory_ignored specs (pre ++ [n]) = false := by
          have := hkb (pre.length + 1) (by omega) hlen
          rw [hpe', take_after_append_cons] at this
          exact this
        refine ⟨n, t', hentry, hgitn.1, hkeptn, hd, ?_, hig, ?_⟩
        · rw [hpe']
          simp only [List.length_append, List.length_cons, List.length_nil]
          rw [drop_after_append_cons]
          exact hgitn.2
        · intro k hk1 hk2
          apply hkb k _ hk2
          simp only [List.length_append, List.length_cons, List.length_nil] at hk1
          omega
  have hnil : ∀ pre g p, (g = true → ".git" ∉ entryNames FSEntries.nil) →
      (entryNames FSEntries.nil).Nodup → wellFormedE FSEntries.nil = true →
      (p ∈ (walkKept specs pre .nil g).2 ↔
        ∃ n t', (n, t') ∈ entriesToList FSEntries.nil ∧ n ≠ ".git" ∧
          is_directory_ignored specs (pre ++ [n]) = false ∧
          dirEmitSpec specs (pre ++ [n]) p t') := by
    intro pre g p _ _ _
    simp [walkKept_nil, entriesToList]
  have hcons : ∀ n t es,
      (∀ pre p, wellFormedT t = true →
        (p ∈ (walkTree specs pre t).2 ↔ dirEmitSpec specs pre p t)) →
      (∀ pre g p, (g = true → ".git" ∉ entryNames es) → (entryNames es).Nodup →
        wellFormedE es = true →
        (p ∈ (walkKept specs pre es g).2 ↔
          ∃ m t', (m, t') ∈ entriesToList es ∧ m ≠ ".git" ∧
            is_directory_ignored specs (pre ++ [m]) = false ∧
            dirEmitSpec specs (pre ++ [m]) p t')) →
      ∀ pre g p, (g = true → ".git" ∉ entryNames (.cons n t es)) →
        (entryNames (.cons n t es)).Nodup → wellFormedE (.cons n t es) = true →
        (p ∈ (walkKept specs pre (.cons n t es) g).2 ↔
          ∃ m t', (m, t') ∈ entriesToList (.cons n t es) ∧ m ≠ ".git" ∧
            is_directory_ignored specs (pre ++ [m]) = false ∧
            dirEmitSpec specs (pre ++ [m]) p t') := by
    intro n t es hP hQ pre g p hflag hnd hwf
    have hnames : entryNames (.cons n t es) = n :: entryNames es := rfl
    rw [hnames, List.nodup_cons] at hnd
    have hwf' : wellFormedT t = true ∧ wellFormedE es = true := by
      have h : wellFormedE (.cons n t es) = (wellFormedT t && wellFormedE es) := rfl
      rw [h, Bool.and_eq_true] at hwf
      exact hwf
    have hlist : entriesToList (.cons n t es) = (n, t) :: entriesToList es := rfl
    rw [walkKept_cons, hlist]
    split_ifs with h1 h2
    · -- the single `.git` entry is removed before classification
      rcases h1 with ⟨rfl, rfl⟩
      have hflag' : (true = true → ".git" ∉ entryNames es) := fun _ => hnd.1
      rw [hQ pre true p hflag' hnd.2 hwf'.2]
      constructor
      · rintro ⟨m, t', hm, hrest⟩
        exact ⟨m, t', List.mem_cons_of_mem _ hm, hrest⟩
      · rintro ⟨m, t', hm, hne, hrest⟩
        rcases List.mem_cons.1 hm with he | hm'
        · rcases Prod.mk.injEq .. ▸ he with ⟨rfl, rfl⟩
          exact absurd rfl hne
        · exact ⟨m, t', hm', hne, hrest⟩
    · -- ignored child: recorded elsewhere, not descended into
      have hflag' : (g = true → ".git" ∉ entryNames es) := by
        intro hg hm
        exact hflag hg (hnames ▸ List.mem_cons_of_mem _ hm)
      rw [hQ pre g p hflag' hnd.2 hwf'.2]
      constructor
      · rintro ⟨m, t', hm, hrest⟩
        exact ⟨m, t', List.mem_cons_of_mem _ hm, hrest⟩
      · rintro ⟨m, t', hm, hne, hkept, hrest⟩
        rcases List.mem_cons.1 hm with he | hm'
        · rcases Prod.mk.injEq .. ▸ he with ⟨rfl, rfl⟩
          rw [h2] at hkept
          exact absurd hkept (by simp)
        · exact ⟨m, t', hm', hne, hkept, hrest⟩
    · -- kept child: descended into
      have hne' : n ≠ ".git" := by
        intro hgit
        subst hgit
        rcases Bool.eq_false_or_eq_true g with hg | hg
        · exact hflag hg (hnames ▸ List.mem_cons_self _ _)
        · exact h1 ⟨rfl, hg⟩
      have hflag' : (g = true → ".git" ∉ entryNames es) := by
        intro hg hm
        exact hflag hg (hnames ▸ List.mem_cons_of_mem _ hm)
      have hkept : is_directory_ignored specs (pre ++ [n]) = false :=
        Bool.eq_false_iff.2 h2
      simp only [List.mem_append]
      rw [hP (pre ++ [n]) p hwf'.1, hQ pre g p hflag' hnd.2 hwf'.2]
      constructor
      · rintro (hhead | ⟨m, t', hm, hrest⟩)
        · exact ⟨n, t, List.mem_cons_self _ _, hne', hkept, hhead⟩
        · exact ⟨m, t', List.mem_cons_of_mem _ hm, hrest⟩
      · rintro ⟨m, t', hm, hne, hkeptm, hrest⟩
        rcases List.mem_cons.1 hm with he | hm'
        · rcases Prod.mk.injEq .. ▸ he with ⟨rfl, rfl⟩
          exact Or.inl hrest
        · exact Or.inr ⟨m, t', hm', hne, hkeptm, hrest⟩
  exact ⟨fun t => FSTree.ind hmk hnil hcons t, fun es => FSEntries.ind hmk hnil hcons es⟩

/-- `is_file_ignored` applied to a whole relative file path. -/
def fileIgnoredAt (specs : RuleMap) (p : List String) : Bool :=
  is_file_ignored specs p.dropLast (p.getLastD "")

theorem fileIgnoredAt_append (specs : RuleMap) (pre : List String) (f : String) :
    fileIgnoredAt specs (pre ++ [f]) = is_file_ignored specs pre f := by
  unfold fileIgnoredAt
  simp

theorem dropLast_append_cons (l1 : List String) (n : String) (r : List String)
    (h : r ≠ []) : (l1 ++ n :: r).dropLast = l1 ++ n :: r.dropLast := by
  rw [List.dropLast_append_of_ne_nil _ (by simp), List.dropLast_cons_of_ne_nil h]

/-- Semantic condition for a file path to be reported by the decision pass
started at `pre` on tree `t`: it is a file of the tree below `pre`, no
directory component below `pre` is `.git`, the file is classified ignored,
and every directory strictly between `pre` and the file is kept. -/
def fileEmitSpec (specs : RuleMap) (pre p : List String) (t : FSTree) : Prop :=
  p ∈ filePathsT pre t ∧ (p.dropLast.drop pre.length).contains ".git" = false ∧
  fileIgnoredAt specs p = true ∧ keptBetween specs pre p

/-- Characterization of the ignored-file output of the decision pass on a
well-formed tree. -/
theorem walk_file_char (specs : RuleMap) :
    (∀ t pre p, wellFormedT t = true →
      (p ∈ (walkTree specs pre t).1 ↔ fileEmitSpec specs pre p t)) ∧
    (∀ es pre g p, (g = true → ".git" ∉ entryNames es) → (entryNames es).Nodup →
      wellFormedE es = true →
      (p ∈ (walkKept specs pre es g).1 ↔
        ∃ n t', (n, t') ∈ entriesToList es ∧ n ≠ ".git" ∧
          is_directory_ignored specs (pre ++ [n]) = false ∧
          fileEmitSpec specs (pre ++ [n]) p t')) := by
  have hmk : ∀ es fs,
      (∀ pre g p, (g = true → ".git" ∉ entryNames es) → (entryNames es).Nodup →
        wellFormedE es = true →
        (p ∈ (walkKept specs pre es g).1 ↔
          ∃ n t', (n, t') ∈ entriesToList es ∧ n ≠ ".git" ∧
            is_directory_ignored specs (pre ++ [n]) = false ∧
            fileEmitSpec specs (pre ++ [n]) p t')) →
      ∀ pre p, wellFormedT (.mk es fs) = true →
        (p ∈ (walkTree specs pre (.mk es fs)).1 ↔ fileEmitSpec specs pre p (.mk es fs)) := by
    intro es fs hQ pre p hwf
    have hwf' : noDupB (entryNames es ++ fs) = true ∧ wellFormedE es = true := by
      have h : wellFormedT (.mk es fs) =
          (noDupB (entryNames es ++ fs) && wellFormedE es) := rfl
      rw [h, Bool.and_eq_true] at hwf
      exact hwf
    have hnd : (entryNames es).Nodup :=
      ((noDupB_iff _).1 hwf'.1).of_append_left
    have hflag0 : (false = true → ".git" ∉ entryNames es) := fun h => Bool.noConfusion h
    rw [walkTree_mk]
    simp only [List.mem_append, List.mem_map, List.mem_filter]
    rw [hQ pre false p hflag0 hnd hwf'.2]
    unfold fileEmitSpec
    rw [filePathsT_mk]
    simp only [List.mem_append, List.mem_map]
    constructor
    · rintro (⟨f, ⟨hf, hfig⟩, rfl⟩ | ⟨n, t', hentry, hne, hkeptn, hspec⟩)
      · -- file of the visited directory itself
        refine ⟨Or.inl ⟨f, hf, rfl⟩, ?_, ?_, ?_⟩
        · simp
        · rw [fileIgnoredAt_append]
          exact hfig
        · intro k hk1 hk2
          rw [List.length_append] at hk2
          simp only [List.length_cons, List.length_nil] at hk2
          omega
      · -- file found while descending into a kept child
        rcases filePaths_extends.1 t' (pre ++ [n]) p hspec.1 with ⟨r, hr, hpe⟩
        have hpe' : p = pre ++ n :: r := by rw [hpe]; simp
        refine ⟨Or.inr ((filePathsE_mem pre p es).2 ⟨n, t', hentry, hspec.1⟩), ?_,
          hspec.2.2.1, ?_⟩
        · rw [hpe', dropLast_append_cons _ _ _ hr, List.drop_left]
          refine (cons_contains_git n r.dropLast).2 ⟨hne, ?_⟩
          have hc := hspec.2.1
          rw [hpe'] at hc
          simp only [List.length_append, List.length_cons, List.length_nil] at hc
          rw [dropLast_append_cons _ _ _ hr, drop_after_append_cons] at hc
          exact hc
        · intro k hk1 hk2
          rcases Nat.lt_or_ge (pre.length + 1) k with hgt | hle
          · apply hspec.2.2.2 k _ hk2
            simp only [List.length_append, List.length_cons, List.length_nil]
            omega
          · have hkeq : k = pre.length + 1 := by omega
            subst hkeq
            rw [hpe', take_after_append_cons]
            exact hkeptn
    · rintro ⟨hmem, hgit, hig, hkb⟩
      rcases hmem with ⟨f, hf, rfl⟩ | he
      · -- file of the visited directory itself
        left
        refine ⟨f, ⟨hf, ?_⟩, rfl⟩
        rw [fileIgnoredAt_append] at hig
        exact hig
      · -- file lies deeper
        right
        rcases (filePathsE_mem pre p es).1 he with ⟨n, t', hentry, hd⟩
        rcases filePaths_extends.1 t' (pre ++ [n]) p hd with ⟨r, hr, hpe⟩
        have hpe' : p = pre ++ n :: r := by rw [hpe]; simp
        have hlen : pre.length + 1 < p.length := by
          rw [hpe', List.length_append, List.length_cons]
          cases r with
          | nil => exact absurd rfl hr
          | cons y ys => simp only [List.length_cons]; omega
        have hgitn : n ≠ ".git" ∧ r.dropLast.contains ".git" = false := by
          rw [hpe', dropLast_append_cons _ _ _ hr, List.drop_left] at hgit
          exact (cons_contains_git n r.dropLast).1 hgit
        have hkeptn : is_directory_ignored specs (pre ++ [n]) = false := by
          have := hkb (pre.length + 1) (by omega) hlen
          rw [hpe', take_after_append_cons] at this
          exact this
        refine ⟨n, t', hentry, hgitn.1, hkeptn, hd, ?_, hig, ?_⟩
        · rw [hpe']
          rw [dropLast_append_cons _ _ _ hr]
          simp only [List.length_append, List.length_cons, List.length_nil]
          rw [drop_after_append_cons]
          exact hgitn.2
        · intro k hk1 hk2
          apply hkb k _ hk2
          simp only [List.length_append, List.length_cons, List.length_nil] at hk1
          omega
  have hnil : ∀ pre g p, (g = true → ".git" ∉ entryNames FSEntries.nil) →
      (entryNames FSEntries.nil).Nodup → wellFormedE FSEntries.nil = true →
      (p ∈ (walkKept specs pre .nil g).1 ↔
        ∃ n t', (n, t') ∈ entriesToList FSEntries.nil ∧ n ≠ ".git" ∧
          is_directory_ignored specs (pre ++ [n]) = false ∧
          fileEmitSpec specs (pre ++ [n]) p t') := by
    intro pre g p _ _ _
    simp [walkKept_nil, entriesToList]
  have hcons : ∀ n t es,
      (∀ pre p, wellFormedT t = true →
        (p ∈ (walkTree specs pre t).1 ↔ fileEmitSpec specs pre p t)) →
      (∀ pre g p, (g = true → ".git" ∉ entryNames es) → (entryNames es).Nodup →
        wellFormedE es = true →
        (p ∈ (walkKept specs pre es g).1 ↔
          ∃ m t', (m, t') ∈ entriesToList es ∧ m ≠ ".git" ∧
            is_directory_ignored specs (pre ++ [m]) = false ∧
            fileEmitSpec specs (pre ++ [m]) p t')) →
      ∀ pre g p, (g = true → ".git" ∉ entryNames (.cons n t es)) →
        (entryNames (.cons n t es)).Nodup → wellFormedE (.cons n t es) = true →
        (p ∈ (walkKept specs pre (.cons n t es) g).1 ↔
          ∃ m t', (m, t') ∈ entriesToList (.cons n t es) ∧ m ≠ ".git" ∧
            is_directory_ignored specs (pre ++ [m]) = false ∧
            fileEmitSpec specs (pre ++ [m]) p t') := by
    intro n t es hP hQ pre g p hflag hnd hwf
    have hnames : entryNames (.cons n t es) = n :: entryNames es := rfl
    rw [hnames, List.nodup_cons] at hnd
    have hwf' : wellFormedT t = true ∧ wellFormedE es = true := by
      have h : wellFormedE (.cons n t es) = (wellFormedT t && wellFormedE es) := rfl
      rw [h, Bool.and_eq_true] at hwf
      exact hwf
    have hlist : entriesToList (.cons n t es) = (n, t) :: entriesToList es := rfl
    rw [walkKept_cons, hlist]
    split_ifs with h1 h2
    · rcases h1 with ⟨rfl, rfl⟩
      have hflag' : (true = true → ".git" ∉ entryNames es) := fun _ => hnd.1
      rw [hQ pre true p hflag' hnd.2 hwf'.2]
      constructor
      · rintro ⟨m, t', hm, hrest⟩
        exact ⟨m, t', List.mem_cons_of_mem _ hm, hrest⟩
      · rintro ⟨m, t', hm, hne, hrest⟩
        rcases List.mem_cons.1 hm with he | hm'
        · rcases Prod.mk.injEq .. ▸ he with ⟨rfl, rfl⟩
          exact absurd rfl hne
        · exact ⟨m, t', hm', hne, hrest⟩
    · have hflag' : (g = true → ".git" ∉ entryNames es) := by
        intro hg hm
        exact hflag hg (hnames ▸ List.mem_cons_of_mem _ hm)
      rw [hQ pre g p hflag' hnd.2 hwf'.2]
      constructor
      · rintro ⟨m, t', hm, hrest⟩
        exact ⟨m, t', List.mem_cons_of_mem _ hm, hrest⟩
      · rintro ⟨m, t', hm, hne, hkept, hrest⟩
        rcases List.mem_cons.1 hm with he | hm'
        · rcases Prod.mk.injEq .. ▸ he with ⟨rfl, rfl⟩
          rw [h2] at hkept
          exact absurd hkept (by simp)
        · exact ⟨m, t', hm', hne, hkept, hrest⟩
    · have hne' : n ≠ ".git" := by
        intro hgit
        subst hgit
        rcases Bool.eq_false_or_eq_true g with hg | hg
        · exact hflag hg (hnames ▸ List.mem_cons_self _ _)
        · exact h1 ⟨rfl, hg⟩
      have hflag' : (g = true → ".git" ∉ entryNames es) := by
        intro hg hm
        exact hflag hg (hnames ▸ List.mem_cons_of_mem _ hm)
      have hkept : is_directory_ignored specs (pre ++ [n]) = false :=
        Bool.eq_false_iff.2 h2
      simp only [List.mem_append]
      rw [hP (pre ++ [n]) p hwf'.1, hQ pre g p hflag' hnd.2 hwf'.2]
      constructor
      · rintro (hhead | ⟨m, t', hm, hrest⟩)
        · exact ⟨n, t, List.mem_cons_self _ _, hne', hkept, hhead⟩
        · exact ⟨m, t', List.mem_cons_of_mem _ hm, hrest⟩
      · rintro ⟨m, t', hm, hne, hkeptm, hrest⟩
        rcases List.mem_cons.1 hm with he | hm'
        · rcases Prod.mk.injEq .. ▸ he with ⟨rfl, rfl⟩
          exact Or.inl hrest
        · exact Or.inr ⟨m, t', hm', hne, hkeptm, hrest⟩
  exact ⟨fun t => FSTree.ind hmk hnil hcons t, fun es => FSEntries.ind hmk hnil hcons es⟩

/-- C9 — Sibling enumeration order does not affect the decision pass.  Two
well-formed trees that represent the same filesystem — identical sets of
directory paths and of file paths, so they can differ only in the order in
which each directory's children are enumerated — yield the same
`IgnoredFileSet` and `IgnoredDirectorySet` as sets, for every rule map. -/
theorem C9_sibling_order_irrelevant (specs : RuleMap) (t1 t2 : FSTree)
    (h1 : wellFormedT t1 = true) (h2 : wellFormedT t2 = true)
    (hd : ∀ q, q ∈ dirPathsT [] t1 ↔ q ∈ dirPathsT [] t2)
    (hf : ∀ q, q ∈ filePathsT [] t1 ↔ q ∈ filePathsT [] t2) :
    ∀ p, (p ∈ (walkTree specs [] t1).1 ↔ p ∈ (walkTree specs [] t2).1) ∧
         (p ∈ (walkTree specs [] t1).2 ↔ p ∈ (walkTree specs [] t2).2) := by
  intro p
  constructor
  · rw [(walk_file_char specs).1 t1 [] p h1, (walk_file_char specs).1 t2 [] p h2]
    unfold fileEmitSpec
    exact and_congr (hf p) Iff.rfl
  · rw [(walk_dir_char specs).1 t1 [] p h1, (walk_dir_char specs).1 t2 [] p h2]
    unfold dirEmitSpec
    exact and_congr (hd p) Iff.rfl

/-- Rule map used by witnesses: `matcher0` at the root only. -/
def rm0 : RuleMap := fun d => if d = [] then some matcher0 else none

/-- Witness tree: two children and two root files, one enumeration order. -/
def treeA : FSTree :=
  .mk (.cons "build" (.mk .nil ["x"]) (.cons "srcd" (.mk .nil ["a.log"]) .nil))
      [".gitignore", "obj.o"]

/-- The same filesystem as `treeA` with both sibling lists enumerated in the
opposite order. -/
def treeB : FSTree :=
  .mk (.cons "srcd" (.mk .nil ["a.log"]) (.cons "build" (.mk .nil ["x"]) .nil))
      ["obj.o", ".gitignore"]

/-- Witness for C9 at a concrete input: the two enumeration orders of the
same filesystem classify `build` identically. -/
theorem C9_witness :
    ["build"] ∈ (walkTree rm0 [] treeA).2 ↔ ["build"] ∈ (walkTree rm0 [] treeB).2 :=
  (C9_sibling_order_irrelevant rm0 treeA treeB (by decide) (by decide)
    (by
      intro q
      have e1 : dirPathsT [] treeA = [["build"], ["srcd"]] := rfl
      have e2 : dirPathsT [] treeB = [["srcd"], ["build"]] := rfl
      rw [e1, e2]
      simp only [List.mem_cons, List.not_mem_nil, or_false]
      tauto)
    (by
      intro q
      have e1 : filePathsT [] treeA =
          [[".gitignore"], ["obj.o"], ["build", "x"], ["srcd", "a.log"]] := rfl
      have e2 : filePathsT [] treeB =
          [["obj.o"], [".gitignore"], ["srcd", "a.log"], ["build", "x"]] := rfl
      rw [e1, e2]
      simp only [List.mem_cons, List.not_mem_nil, or_false]
      tauto)
    ["build"]).2

theorem lookupDir_nil (t : FSTree) : lookupDir t [] = some t := rfl

theorem lookupDir_cons (es : FSEntries) (fs : List String) (n : String) (r : List String) :
    lookupDir (.mk es fs) (n :: r) =
      match findEntry es n with
      | none => none
      | some t' => lookupDir t' r := rfl

theorem findEntry_mem (n : String) (t' : FSTree) :
    ∀ es, findEntry es n = some t' → (n, t') ∈ entriesToList es := by
  intro es
  induction es using FSEntries.indList with
  | hnil => intro h; simp [findEntry] at h
  | hcons m t rest ih =>
    intro h
    rw [show findEntry (.cons m t rest) n =
      (if m = n then some t else findEntry rest n) from rfl] at h
    show (n, t') ∈ (m, t) :: entriesToList rest
    split_ifs at h with hm
    · subst hm
      rw [Option.some.injEq] at h
      subst h
      exact List.mem_cons_self _ _
    · exact List.mem_cons_of_mem _ (ih h)

theorem findEntry_of_mem (n : String) (t' : FSTree) :
    ∀ es, (entryNames es).Nodup → (n, t') ∈ entriesToList es →
      findEntry es n = some t' := by
  intro es
  induction es using FSEntries.indList with
  | hnil => intro _ h; simp [entriesToList] at h
  | hcons m t rest ih =>
    intro hnd h
    have hnames : entryNames (.cons m t rest) = m :: entryNames rest := rfl
    rw [hnames, List.nodup_cons] at hnd
    rw [show entriesToList (.cons m t rest) = (m, t) :: entriesToList rest from rfl] at h
    rw [show findEntry (.cons m t rest) n =
      (if m = n then some t else findEntry rest n) from rfl]
    rcases List.mem_cons.1 h with he | hm'
    · rcases Prod.mk.injEq .. ▸ he with ⟨rfl, rfl⟩
      simp
    · have hne : m ≠ n := by
        rintro rfl
        have : m ∈ entryNames rest := by
          rcases (mem_entryNames m rest).2 ⟨t', hm'⟩ with h'
          exact h'
        exact hnd.1 this
      rw [if_neg hne]
      exact ih hnd.2 hm'

/-- Characterization of the keys inserted by `collect_all_gitignore_specs`:
on a well-formed tree, directory `q` receives an entry iff the walk visits a
directory at `q` (the root included, `.git` subtrees included) that directly
contains an ignore-rule file. -/
theorem collect_keys (compile : List String → Matcher) :
    (∀ t pre q, wellFormedT t = true →
      ((∃ m, (q, m) ∈ collectT compile pre t) ↔
        ∃ r sub, q = pre ++ r ∧ lookupDir t r = some sub ∧ hasGI sub = true)) ∧
    (∀ es pre q, wellFormedE es = true → (entryNames es).Nodup →
      ((∃ m, (q, m) ∈ collectE compile pre es) ↔
        ∃ n t', (n, t') ∈ entriesToList es ∧
          ∃ r sub, q = pre ++ n :: r ∧ lookupDir t' r = some sub ∧
            hasGI sub = true)) := by
  have hmk : ∀ es fs,
      (∀ pre q, wellFormedE es = true → (entryNames es).Nodup →
        ((∃ m, (q, m) ∈ collectE compile pre es) ↔
          ∃ n t', (n, t') ∈ entriesToList es ∧
            ∃ r sub, q = pre ++ n :: r ∧ lookupDir t' r = some sub ∧
              hasGI sub = true)) →
      ∀ pre q, wellFormedT (.mk es fs) = true →
        ((∃ m, (q, m) ∈ collectT compile pre (.mk es fs)) ↔
          ∃ r sub, q = pre ++ r ∧ lookupDir (.mk es fs) r = some sub ∧
            hasGI sub = true) := by
    intro es fs hQ pre q hwf
    have hwf' : noDupB (entryNames es ++ fs) = true ∧ wellFormedE es = true := by
      have h : wellFormedT (.mk es fs) =
          (noDupB (entryNames es ++ fs) && wellFormedE es) := rfl
      rw [h, Bool.and_eq_true] at hwf
      exact hwf
    have hnd : (entryNames es).Nodup :=
      ((noDupB_iff _).1 hwf'.1).of_append_left
    have hco : collectT compile pre (.mk es fs) =
        (if fs.contains ".gitignore" then [(pre, compile pre)] else []) ++
          collectE compile pre es := rfl
    rw [hco]
    constructor
    · rintro ⟨m, hm⟩
      rcases List.mem_append.1 hm with hh | he
      · split_ifs at hh with hgi
        · rcases List.mem_singleton.1 hh with he'
          rcases Prod.mk.injEq .. ▸ he' with ⟨rfl, rfl⟩
          exact ⟨[], .mk es fs, by simp, rfl, hgi⟩
        · simp at hh
      · rcases (hQ pre q hwf'.2 hnd).1 ⟨m, he⟩ with ⟨n, t', hentry, r, sub, hq, hl, hgi⟩
        refine ⟨n :: r, sub, hq, ?_, hgi⟩
        rw [lookupDir_cons, findEntry_of_mem n t' es hnd hentry]
        exact hl
    · rintro ⟨r, sub, rfl, hl, hgi⟩
      cases r with
      | nil =>
        rw [lookupDir_nil, Option.some.injEq] at hl
        subst hl
        refine ⟨compile pre, List.mem_append.2 (Or.inl ?_)⟩
        have : hasGI (.mk es fs) = fs.contains ".gitignore" := rfl
        rw [this] at hgi
        rw [if_pos hgi]
        simp
      | cons n r' =>
        rw [lookupDir_cons] at hl
        rcases hfe : findEntry es n with _ | t'
        · rw [hfe] at hl; simp at hl
        · rw [hfe] at hl
          have hentry := findEntry_mem n t' es hfe
          rcases (hQ pre (pre ++ n :: r') hwf'.2 hnd).2
            ⟨n, t', hentry, r', sub, rfl, hl, hgi⟩ with ⟨m, hm⟩
          exact ⟨m, List.mem_append.2 (Or.inr hm)⟩
  have hnil : ∀ pre q, wellFormedE FSEntries.nil = true →
      (entryNames FSEntries.nil).Nodup →
      ((∃ m, (q, m) ∈ collectE compile pre .nil) ↔
        ∃ n t', (n, t') ∈ entriesToList FSEntries.nil ∧
          ∃ r sub, q = pre ++ n :: r ∧ lookupDir t' r = some sub ∧
            hasGI sub = true) := by
    intro pre q _ _
    constructor
    · rintro ⟨m, hm⟩
      simp [show collectE compile pre .nil = [] from rfl] at hm
    · rintro ⟨n, t', hentry, _⟩
      simp [entriesToList] at hentry
  have hcons : ∀ n t es,
      (∀ pre q, wellFormedT t = true →
        ((∃ m, (q, m) ∈ collectT compile pre t) ↔
          ∃ r sub, q = pre ++ r ∧ lookupDir t r = some sub ∧ hasGI sub = true)) →
      (∀ pre q, wellFormedE es = true → (entryNames es).Nodup →
        ((∃ m, (q, m) ∈ collectE compile pre es) ↔
          ∃ n' t', (n', t') ∈ entriesToList es ∧
            ∃ r sub, q = pre ++ n' :: r ∧ lookupDir t' r = some sub ∧
              hasGI sub = true)) →
      ∀ pre q, wellFormedE (.cons n t es) = true →
        (entryNames (.cons n t es)).Nodup →
        ((∃ m, (q, m) ∈ collectE compile pre (.cons n t es)) ↔
          ∃ n' t', (n', t') ∈ entriesToList (.cons n t es) ∧
            ∃ r sub, q = pre ++ n' :: r ∧ lookupDir t' r = some sub ∧
              hasGI sub = true) := by
    intro n t es hP hQ pre q hwf hnd
    have hnames : entryNames (.cons n t es) = n :: entryNames es := rfl
    rw [hnames, List.nodup_cons] at hnd
    have hwf' : wellFormedT t = true ∧ wellFormedE es = true := by
      have h : wellFormedE (.cons n t es) = (wellFormedT t && wellFormedE es) := rfl
      rw [h, Bool.and_eq_true] at hwf
      exact hwf
    have hco : collectE compile pre (.cons n t es) =
        collectT compile (pre ++ [n]) t ++ collectE compile pre es := rfl
    rw [hco, show entriesToList (.cons n t es) = (n, t) :: entriesToList es from rfl]
    constructor
    · rintro ⟨m, hm⟩
      rcases List.mem_append.1 hm with hh | he
      · rcases (hP (pre ++ [n]) q hwf'.1).1 ⟨m, hh⟩ with ⟨r, sub, rfl, hl, hgi⟩
        exact ⟨n, t, List.mem_cons_self _ _, r, sub, by simp, hl, hgi⟩
      · rcases (hQ pre q hwf'.2 hnd.2).1 ⟨m, he⟩ with ⟨n', t', hentry, hrest⟩
        exact ⟨n', t', List.mem_cons_of_mem _ hentry, hrest⟩
    · rintro ⟨n', t', hentry, r, sub, hq, hl, hgi⟩
      rcases List.mem_cons.1 hentry with he | hm'
      · rcases Prod.mk.injEq .. ▸ he with ⟨rfl, rfl⟩
        have hq' : q = (pre ++ [n']) ++ r := by rw [hq]; simp
        rcases (hP (pre ++ [n']) q hwf'.1).2 ⟨r, sub, hq', hl, hgi⟩ with ⟨m, hm⟩
        exact ⟨m, List.mem_append.2 (Or.inl hm)⟩
      · rcases (hQ pre q hwf'.2 hnd.2).2 ⟨n', t', hm', r, sub, hq, hl, hgi⟩ with ⟨m, hm⟩
        exact ⟨m, List.mem_append.2 (Or.inr hm)⟩
  exact ⟨fun t => FSTree.ind hmk hnil hcons t, fun es => FSEntries.ind hmk hnil hcons es⟩

theorem lookupRM_isSome (l : List (List String × Matcher)) (q : List String) :
    (lookupRM l q).isSome = true ↔ ∃ m, (q, m) ∈ l := by
  unfold lookupRM
  rcases hfind : List.find? (fun e => e.1 == q) l.reverse with _ | e
  · simp only [hfind, Option.map_none', Option.isSome_none]
    constructor
    · intro h
      exact absurd h (by simp)
    · rintro ⟨m, hm⟩
      have hs : (List.find? (fun e => e.1 == q) l.reverse).isSome = true :=
        List.find?_isSome.2 ⟨(q, m), List.mem_reverse.2 hm, by simp⟩
      rw [hfind] at hs
      simp at hs
  · simp only [hfind, Option.map_some', Option.isSome_some]
    constructor
    · intro _
      have hp := List.find?_some hfind
      have hmem := List.mem_of_find?_eq_some hfind
      rw [beq_iff_eq] at hp
      exact ⟨e.2, by rw [← hp]; exact List.mem_reverse.1 hmem⟩
    · intro _
      trivial

/-- C3 amended — the Rule Collector does not exclude `.git` from its
enumeration: on a well-formed tree, the rule map holds an entry for exactly
the directories (the root and every descendant, those inside `.git`
included) that directly contain an ignore-rule file.  Only the scanner's
traversal (`find_ignored_files`) excludes `.git`. -/
theorem C3_collector_does_not_exclude_git (compile : List String → Matcher)
    (t : FSTree) (hwf : wellFormedT t = true) (p : List String) :
    (lookupRM (collect_all_gitignore_specs compile t) p).isSome = true ↔
      ∃ sub, lookupDir t p = some sub ∧ hasGI sub = true := by
  rw [lookupRM_isSome]
  unfold collect_all_gitignore_specs
  rw [(collect_keys compile).1 t [] p hwf]
  constructor
  · rintro ⟨r, sub, rfl, hl, hgi⟩
    exact ⟨sub, by simpa using hl, hgi⟩
  · rintro ⟨sub, hl, hgi⟩
    exact ⟨p, sub, by simp, hl, hgi⟩

/-- Concrete tree whose `.git` directory contains an ignore-rule file. -/
def treeGit : FSTree :=
  .mk (.cons ".git" (.mk .nil [".gitignore"]) .nil) [".gitignore"]

/-- Counterexample to C3 as stated: the `.gitignore` inside the `.git`
directory of `treeGit` does contribute an entry to the rule map, keyed at
the `.git` directory. -/
theorem C3_counterexample :
    (lookupRM (collect_all_gitignore_specs compile0 treeGit) [".git"]).isSome = true := by
  decide

/-- Witness for the amended C3 at a concrete input. -/
theorem C3_witness :
    ((lookupRM (collect_all_gitignore_specs compile0 treeGit) [".git"]).isSome = true ↔
      ∃ sub, lookupDir treeGit [".git"] = some sub ∧ hasGI sub = true) :=
  C3_collector_does_not_exclude_git compile0 treeGit (by decide) [".git"]

/-!
Deletion planner.  Removal effects are abstracted by two oracles
`failF`/`failD` telling whether `Path.unlink` / `shutil.rmtree` raises
`OSError` on a given path.  The planner records the removal system calls it
issues (`calls`, tagged by is-directory) and the per-item success lines it
prints (`reports`).
-/

/-- Outcome of `delete_items`: counts of successful removals, the removal
calls issued in order, and the success lines printed in order. -/
structure DeleteResult where
  deletedFiles : Nat
  deletedDirs : Nat
  calls : List (List String × Bool)
  reports : List (List String × Bool)
deriving DecidableEq

/-- The file-deletion loop of `delete_items`.  Returns
`(count, calls, reports)` for a suffix of the file list. -/
def deleteFilesLoop (dry : Bool) (failF : List String → Bool) :
    List (List String) → Nat × List (List String × Bool) × List (List String × Bool)
  | [] => (0, [], [])
  | f :: rest =>
    let r := deleteFilesLoop dry failF rest
    if dry then (r.1 + 1, r.2.1, (f, false) :: r.2.2)
    else if failF f then (r.1, (f, false) :: r.2.1, r.2.2)
    else (r.1 + 1, (f, false) :: r.2.1, (f, false) :: r.2.2)

/-- The directory-deletion loop of `delete_items` (applied to the
depth-sorted list). -/
def deleteDirsLoop (dry : Bool) (failD : List String → Bool) :
    List (List String) → Nat × List (List String × Bool) × List (List String × Bool)
  | [] => (0, [], [])
  | d :: rest =>
    let r := deleteDirsLoop dry failD rest
    if dry then (r.1 + 1, r.2.1, (d, true) :: r.2.2)
    else if failD d then (r.1, (d, true) :: r.2.1, r.2.2)
    else (r.1 + 1, (d, true) :: r.2.1, (d, true) :: r.2.2)

/-- `sorted(ignored_directories, key=lambda p: len(p.parts), reverse=True)`:
Python's `sorted` is stable, and stable insertion sort computes the same
list, so the model sorts by descending component count with
`List.insertionSort`. -/
def sortDirsByDepth (dirs : List (List String)) : List (List String) :=
  List.insertionSort (fun a b => b.length ≤ a.length) dirs

/-- `delete_items(ignored_files, ignored_directories, root, dry_run)`:
files first in list order, then directories deepest-first; a failing
removal is reported and skipped, never aborting the loop. -/
def delete_items (files dirs : List (List String)) (dry : Bool)
    (failF failD : List String → Bool) : DeleteResult :=
  let fr := deleteFilesLoop dry failF files
  let dr := deleteDirsLoop dry failD (sortDirsByDepth dirs)
  ⟨fr.1, dr.1, fr.2.1 ++ dr.2.1, fr.2.2 ++ dr.2.2⟩

/-- `main()`: precondition checks (directory exists, is a directory, root
`.gitignore` present — the first two are oracles `ex`/`isdir` of the
filesystem stat calls), then scan, report, and the dry-run / confirmation /
deletion branches.  Returns `(exit code, whether the scan ran)`. -/
def gi_main (ex isdir : Bool) (t : FSTree) (compile : List String → Matcher)
    (dry yes conf : Bool) (failF failD : List String → Bool) : Nat × Bool :=
  if !ex then (1, false)
  else if !isdir then (1, false)
  else if !(rootFiles t).contains ".gitignore" then (1, false)
  else
    let r := find_ignored_files compile t
    if r.1.isEmpty && r.2.isEmpty then (0, true)
    else if dry then (0, true)
    else if !yes && !conf then (0, true)
    else
      let _ := delete_items r.1 r.2 false failF failD
      (0, true)

theorem deleteFilesLoop_real (failF : List String → Bool) :
    ∀ files, deleteFilesLoop false failF files =
      ((files.filter (fun f => !failF f)).length,
       files.map (fun f => (f, false)),
       (files.filter (fun f => !failF f)).map (fun f => (f, false))) := by
  intro files
  induction files with
  | nil => rfl
  | cons f rest ih =>
    cases hf : failF f
    · simp [deleteFilesLoop, ih, hf, List.filter_cons]
    · simp [deleteFilesLoop, ih, hf, List.filter_cons]

theorem deleteDirsLoop_real (failD : List String → Bool) :
    ∀ dirs, deleteDirsLoop false failD dirs =
      ((dirs.filter (fun d => !failD d)).length,
       dirs.map (fun d => (d, true)),
       (dirs.filter (fun d => !failD d)).map (fun d => (d, true))) := by
  intro dirs
  induction dirs with
  | nil => rfl
  | cons d rest ih =>
    cases hd : failD d
    · simp [deleteDirsLoop, ih, hd, List.filter_cons]
    · simp [deleteDirsLoop, ih, hd, List.filter_cons]

theorem deleteFilesLoop_dry (failF : List String → Bool) :
    ∀ files, deleteFilesLoop true failF files =
      (files.length, [], files.map (fun f => (f, false))) := by
  intro files
  induction files with
  | nil => rfl
  | cons f rest ih => simp [deleteFilesLoop, ih]

theorem deleteDirsLoop_dry (failD : List String → Bool) :
    ∀ dirs, deleteDirsLoop true failD dirs =
      (dirs.length, [], dirs.map (fun d => (d, true))) := by
  intro dirs
  induction dirs with
  | nil => rfl
  | cons d rest ih => simp [deleteDirsLoop, ih]

theorem sortDirsByDepth_perm (dirs : List (List String)) :
    (sortDirsByDepth dirs).Perm dirs :=
  List.perm_insertionSort _ dirs

instance : IsTotal (List String) (fun a b => b.length ≤ a.length) :=
  ⟨fun a b => Nat.le_total b.length a.length⟩

instance : IsTrans (List String) (fun a b => b.length ≤ a.length) :=
  ⟨fun _ _ _ hab hbc => le_trans hbc hab⟩

theorem sortDirsByDepth_sorted (dirs : List (List String)) :
    List.Pairwise (fun a b => b.length ≤ a.length) (sortDirsByDepth dirs) :=
  List.sorted_insertionSort _ dirs

theorem filter_tag_false (l : List (List String)) :
    (l.map fun f => (f, false)).filter (fun c : List String × Bool => c.2) = [] := by
  induction l with
  | nil => rfl
  | cons x xs ih => simp [ih]

theorem filter_tag_true (l : List (List String)) :
    (l.map fun d => (d, true)).filter (fun c : List String × Bool => c.2) =
      l.map fun d => (d, true) := by
  induction l with
  | nil => rfl
  | cons x xs ih => simp [ih]

/-- The directory-removal calls issued by a real (non-dry) run, in order. -/
def dirCallOrder (files dirs : List (List String)) (failF failD : List String → Bool) :
    List (List String) :=
  (((delete_items files dirs false failF failD).calls).filter
    (fun c => c.2)).map (fun c => c.1)

theorem dirCallOrder_eq (files dirs : List (List String))
    (failF failD : List String → Bool) :
    dirCallOrder files dirs failF failD = sortDirsByDepth dirs := by
  unfold dirCallOrder delete_items
  simp only [deleteFilesLoop_real, deleteDirsLoop_real]
  rw [List.filter_append, filter_tag_false, filter_tag_true, List.nil_append,
    List.map_map]
  rw [show ((fun c : List String × Bool => c.1) ∘ fun d => (d, true)) = id from rfl]
  rw [List.map_id]

/-- C4 — The Deletion Planner removes directories deepest-first: in a real
run the sequence of directory-removal calls is the input set sorted by
component count descending, so whenever `A` is shallower than `B`, `B`'s
removal is attempted no later than `A`'s. -/
theorem C4_directories_removed_deepest_first (files dirs : List (List String))
    (failF failD : List String → Bool) :
    (dirCallOrder files dirs failF failD).Perm dirs ∧
    List.Pairwise (fun a b => b.length ≤ a.length)
      (dirCallOrder files dirs failF failD) ∧
    ∀ i j : Fin (dirCallOrder files dirs failF failD).length,
      ((dirCallOrder files dirs failF failD).get i).length <
        ((dirCallOrder files dirs failF failD).get j).length → (j : Nat) < i := by
  refine ⟨?_, ?_, ?_⟩
  · rw [dirCallOrder_eq]
    exact sortDirsByDepth_perm dirs
  · rw [dirCallOrder_eq]
    exact sortDirsByDepth_sorted dirs
  · intro i j hlt
    have hsorted := List.pairwise_iff_get.1
      (show List.Pairwise (fun a b => b.length ≤ a.length)
        (dirCallOrder files dirs failF failD) from
        dirCallOrder_eq files dirs failF failD ▸ sortDirsByDepth_sorted dirs)
    rcases Nat.lt_trichotomy (i : Nat) (j : Nat) with h | h | h
    · have := hsorted i j (Fin.lt_def.2 h)
      omega
    · have : i = j := Fin.ext h
      subst this
      omega
    · exact h

/-- Oracle for witnesses: no removal ever fails. -/
def neverFail : List String → Bool := fun _ => false

/-- Oracle for counterexamples: every removal fails. -/
def alwaysFail : List String → Bool := fun _ => true

/-- Witness for C4 at a concrete input: with directories `a` and `a/b`, the
call at position `0` is deeper than the one at position `1`, so the premise
at `(i, j) = (1, 0)` holds and yields `0 < 1`. -/
theorem C4_witness :
    (dirCallOrder [] [["a"], ["a", "b"]] neverFail neverFail).length = 2 ∧
    (0 : Nat) < 1 :=
  ⟨by decide,
    (C4_directories_removed_deepest_first [] [["a"], ["a", "b"]] neverFail
      neverFail).2.2 ⟨1, by decide⟩ ⟨0, by decide⟩ (by decide)⟩

/-- C5 — Removal errors are local: in a real run every item's removal is
attempted regardless of other items' failures (the call list is exactly all
files then all depth-sorted directories), a failing item is simply not
counted, the returned counts are exactly the numbers of files and
directories whose removal succeeded, and whenever `main` reaches its
deletion stage it still exits `0`, whatever the failure oracles say. -/
theorem C5_deletion_failures_are_local_and_exit_zero
    (files dirs : List (List String)) (failF failD : List String → Bool) :
    (delete_items files dirs false failF failD).deletedFiles =
      (files.filter (fun f => !failF f)).length ∧
    (delete_items files dirs false failF failD).deletedDirs =
      (dirs.filter (fun d => !failD d)).length ∧
    (delete_items files dirs false failF failD).calls =
      files.map (fun f => (f, false)) ++
        (sortDirsByDepth dirs).map (fun d => (d, true)) ∧
    ∀ (t : FSTree) (compile : List String → Matcher) (conf : Bool),
      (rootFiles t).contains ".gitignore" = true →
      gi_main true true t compile false true conf failF failD = (0, true) := by
  refine ⟨?_, ?_, ?_, ?_⟩
  · unfold delete_items
    rw [deleteFilesLoop_real]
  · unfold delete_items
    rw [deleteDirsLoop_real]
    exact ((sortDirsByDepth_perm dirs).filter _).length_eq
  · unfold delete_items
    rw [deleteFilesLoop_real, deleteDirsLoop_real]
  · intro t compile conf hgi
    unfold gi_main
    rw [hgi]
    simp only [Bool.not_true, Bool.false_eq_true, if_false, ite_self]

/-- Witness for C5 at a concrete input: a run over `tree0` that reaches the
deletion stage exits `0`. -/
theorem C5_witness :
    gi_main true true tree0 compile0 false true true neverFail neverFail = (0, true) :=
  (C5_deletion_failures_are_local_and_exit_zero [] [] neverFail neverFail).2.2.2
    tree0 compile0 true (by decide)

/-- C6 — `main` returns exit code `1` without scanning exactly when a
precondition fails (target missing, target not a directory, or no
ignore-rule file at the root's top level), and returns `0` after scanning in
every other case — nothing to delete, dry run, declined or confirmed
deletion alike. -/
theorem C6_exit_codes (ex isdir : Bool) (t : FSTree)
    (compile : List String → Matcher) (dry yes conf : Bool)
    (failF failD : List String → Bool) :
    gi_main ex isdir t compile dry yes conf failF failD =
      (if ex && isdir && (rootFiles t).contains ".gitignore" then (0, true)
       else (1, false)) := by
  unfold gi_main
  cases ex <;> cases isdir <;> cases hgi : (rootFiles t).contains ".gitignore" <;>
    simp only [hgi, Bool.not_true, Bool.not_false, Bool.false_and, Bool.and_false,
      Bool.true_and, Bool.and_true, if_true, if_false, Bool.false_eq_true,
      Bool.true_eq_false, ite_self]

/-- Counterexample to C7 as stated: when the only file's removal would fail,
the dry run counts one deleted file but the real deletion deletes zero, so
dry-run counts are not always "the counts the real deletion would have
produced". -/
theorem C7_counterexample :
    ¬ ((delete_items [["a"]] [] true alwaysFail alwaysFail).deletedFiles =
       (delete_items [["a"]] [] false alwaysFail alwaysFail).deletedFiles) := by
  decide

/-- C7 amended — Dry-run mode performs the same decision and
depth-descending ordering logic (its per-item report lines are exactly all
files then all depth-sorted directories, the order a real run processes
them) but issues no removal call, and returns the sizes of the two input
sets — which equal the counts a real deletion produces whenever every
removal succeeds. -/
theorem C7_dry_run_reports_totals_without_removal
    (files dirs : List (List String)) (failF failD : List String → Bool) :
    (delete_items files dirs true failF failD).calls = [] ∧
    (delete_items files dirs true failF failD).deletedFiles = files.length ∧
    (delete_items files dirs true failF failD).deletedDirs = dirs.length ∧
    (delete_items files dirs true failF failD).reports =
      files.map (fun f => (f, false)) ++
        (sortDirsByDepth dirs).map (fun d => (d, true)) ∧
    ((∀ f ∈ files, failF f = false) → (∀ d ∈ dirs, failD d = false) →
      (delete_items files dirs false failF failD).deletedFiles = files.length ∧
      (delete_items files dirs false failF failD).deletedDirs = dirs.length) := by
  refine ⟨?_, ?_, ?_, ?_, ?_⟩
  · unfold delete_items
    rw [deleteFilesLoop_dry, deleteDirsLoop_dry]
    rfl
  · unfold delete_items
    rw [deleteFilesLoop_dry]
  · unfold delete_items
    rw [deleteDirsLoop_dry]
    exact (sortDirsByDepth_perm dirs).length_eq
  · unfold delete_items
    rw [deleteFilesLoop_dry, deleteDirsLoop_dry]
  · intro hf hd
    constructor
    · unfold delete_items
      rw [deleteFilesLoop_real]
      show (files.filter _).length = _
      rw [List.filter_eq_self.2 (by
        intro f hfm
        rw [hf f hfm]
        rfl)]
    · unfold delete_items
      rw [deleteDirsLoop_real]
      show ((sortDirsByDepth dirs).filter _).length = _
      rw [List.filter_eq_self.2 (by
        intro d hdm
        rw [hd d ((sortDirsByDepth_perm dirs).mem_iff.1 hdm)]
        rfl)]
      exact (sortDirsByDepth_perm dirs).length_eq

/-- Witness for the amended C7 at a concrete input with no failures. -/
theorem C7_witness :
    (delete_items [["a"]] [["b"]] false neverFail neverFail).deletedFiles = 1 ∧
    (delete_items [["a"]] [["b"]] false neverFail neverFail).deletedDirs = 1 :=
  (C7_dry_run_reports_totals_without_removal [["a"]] [["b"]] neverFail
    neverFail).2.2.2.2 (by decide) (by decide)
